import Mathlib

/-!
Verification of the navigation-tree builder, sitemap emitter and per-document
output phase of `src/website/generate.js`.

The script loads a list of documents (each with a canonical site path `name`,
a metadata bag `data` and a `navExclude` flag), folds them into a navigation
tree (`navTree`, lines 114-139), emits a sitemap with one entry per document
(lines 141-152), and writes `index.json` / `index.html` files per document
(lines 158-254).  The metadata bag is opaque to all of this logic, so it is
modelled by a type parameter `α`.
-/

namespace Generate

/-- A document as produced by the loading phase (lines 64-112 of
`generate.js`): its canonical site path `name` (e.g. `"/blog/post/"`),
its metadata bag `data`, and the `data.navExclude` flag (tested on
line 124; modelled as a separate `Bool` field since the tree logic only
reads that one field of the bag). -/
structure Doc (α : Type) where
  name : String
  data : α
  navExclude : Bool
deriving DecidableEq

/-- A navigation-tree node, `{name, data, children}` (line 115 / line 131 of
`generate.js`).  The `data` of a placeholder node is the empty bag `{}`,
modelled as `none`; `context.data = data` (line 138) stores `some data`. -/
inductive Item (α : Type) : Type
  | mk (name : String) (data : Option α) (children : List (Item α)) : Item α

def Item.name {α : Type} : Item α → String
  | .mk n _ _ => n

def Item.data {α : Type} : Item α → Option α
  | .mk _ d _ => d

def Item.children {α : Type} : Item α → List (Item α)
  | .mk _ _ cs => cs

/-- JavaScript `str.split(sep)` for a one-character separator `sep`, on the
character list of the string: `"".split(c) = [""]`, and otherwise the
(possibly empty) chunks between occurrences of `c`.  Mirrors
`name.split('/')` on line 120 of `generate.js`. -/
def splitOnChar (c : Char) : List Char → List (List Char)
  | [] => [[]]
  | a :: rest =>
    match splitOnChar c rest with
    | [] => [[]]
    | h :: t => if a = c then [] :: h :: t else (a :: h) :: t

/-- JavaScript `arr.join(sep)` for a one-character separator: interleaves
`c` between the chunks.  Mirrors `parts.slice(0, partIndex + 1).join('/')`
on line 127 of `generate.js`. -/
def joinChar (c : Char) : List (List Char) → List Char
  | [] => []
  | [s] => s
  | s :: rest => s ++ c :: joinChar c rest

/-- `const parts = name.split('/').slice(0, -1)` (line 120 of
`generate.js`). -/
def partsOf (name : String) : List (List Char) :=
  (splitOnChar '/' name.data).dropLast

/-- The successive node names computed by the inner `while` loop of
`generate.js` (lines 126-136): for `partIndex = 1, ..., parts.length - 1`
the loop computes `parts.slice(0, partIndex + 1).join('/') + '/'` and
descends into (or creates) the child of that name.  `chainOf name` is the
list of these names, in the order the loop visits them. -/
def chainOf (name : String) : List String :=
  ((List.range (partsOf name).length).drop 1).map
    (fun i => ⟨joinChar '/' ((partsOf name).take (i + 1)) ++ ['/']⟩)

/-- Accumulator form of `chainOf`, convenient for induction: `acc` is the
join of the segments consumed so far (`parts.slice(0, partIndex).join('/')`
in the loop of `generate.js`), and each step emits
`acc + '/' + seg + '/'`, i.e. `parts.slice(0, partIndex + 1).join('/') + '/'`.
`chainAcc_eq_map_range'` and `chainOf_eq_chainAcc` below prove it equal to
`chainOf`. -/
def chainAcc (acc : List Char) : List (List Char) → List String
  | [] => []
  | seg :: rest => ⟨acc ++ '/' :: (seg ++ ['/'])⟩ :: chainAcc (acc ++ '/' :: seg) rest

/-- Replace the first element of `cs` whose `name` is `n` by `x`; models the
in-place mutation of the node found by
`context.children.find((d) => d.name === name)` (line 128 of
`generate.js`). -/
def replaceFirst {α : Type} : List (Item α) → String → Item α → List (Item α)
  | [], _, _ => []
  | c :: cs, n, x => if c.name = n then x :: cs else c :: replaceFirst cs n x

/-- The inner `while` loop plus the final `context.data = data` of
`generate.js` (lines 126-138), with the loop's successive node names given
as the list `ch` (see `chainOf`):  descend along `ch` from `t`, creating a
node `{name, data: {}, children: []}` and pushing it at the end of the
children when absent (lines 130-133), and store the document's bag at the
node reached at the end of the chain (line 138). -/
def insertNames {α : Type} (d : α) : List String → Item α → Item α
  | [], t => Item.mk t.name (some d) t.children
  | n :: rest, t =>
    match t.children.find? (fun c => decide (c.name = n)) with
    | some c => Item.mk t.name t.data (replaceFirst t.children n (insertNames d rest c))
    | none =>
      Item.mk t.name t.data
        (t.children ++ [insertNames d rest (Item.mk n none [])])

/-- One iteration of the outer `while` loop of `generate.js`
(lines 118-139): skip the document when `data.navExclude` is set
(line 124), otherwise walk/extend the tree along the document's path and
store its bag. -/
def insertDoc {α : Type} (t : Item α) (d : Doc α) : Item α :=
  if d.navExclude then t else insertNames d.data (chainOf d.name) t

/-- The navigation tree built by lines 114-139 of `generate.js`: starting
from `{name: '/', data: {}, children: []}` (line 115), process the
documents in input order. -/
def navTree {α : Type} (docs : List (Doc α)) : Item α :=
  docs.foldl insertDoc (Item.mk "/" none [])

/-- One sitemap entry, `{url, modified, lang}` as built on lines 145-149 of
`generate.js`. -/
structure SitemapEntry : Type where
  url : String
  modified : Option Nat
  lang : String
deriving DecidableEq

/-- The sitemap entry list of lines 144-150 of `generate.js`:
`allInfo.map((d) => ({url: new URL(d.name, config.site).href, modified: d.data && d.data.meta && d.data.meta.modified, lang: 'en'}))`.
`site` is the site origin (`config.site`); resolving a path-absolute
document name against it concatenates origin and path.  `modifiedOf`
projects `d.data && d.data.meta && d.data.meta.modified` out of the opaque
bag. -/
def sitemapEntries {α : Type} (site : String) (modifiedOf : α → Option Nat)
    (docs : List (Doc α)) : List SitemapEntry :=
  docs.map (fun d => ⟨site ++ d.name, modifiedOf d.data, "en"⟩)

/-- The output files written by the render phase of `generate.js`
(lines 158-254), one pair per document of `allInfo`: the metadata JSON at
`'.' + name + 'index.json'` under the output root (line 70, written on
line 163) and the HTML at `new URL('index.html', jsonUrl)` (line 243,
written on line 250), i.e. at `name + 'index.html'`.  The rendered HTML
content itself is produced by external libraries and is out of scope; the
claims concern which paths get written. -/
def renderOutputs {α : Type} (docs : List (Doc α)) : List (String × String) :=
  docs.map (fun d => (d.name ++ "index.json", d.name ++ "index.html"))

/-! Observation functions on trees (not part of the source; used to state
properties). -/

/-- Descend from `t` along a chain of child names, matching the first child
of each name exactly as `context.children.find((d) => d.name === name)`
does. -/
def getNode {α : Type} : Item α → List String → Option (Item α)
  | t, [] => some t
  | t, n :: rest =>
    match t.children.find? (fun c => decide (c.name = n)) with
    | some c => getNode c rest
    | none => none

/-- The `data` field of the node reached along `ns`, if that node exists. -/
def dataAt {α : Type} (t : Item α) (ns : List String) : Option (Option α) :=
  (getNode t ns).map Item.data

/-- The `name` field of the node reached along `ns`, if that node exists. -/
def nameAt {α : Type} (t : Item α) (ns : List String) : Option String :=
  (getNode t ns).map Item.name

/-- The names of the children of the node reached along `ns`, in order, if
that node exists. -/
def childNamesAt {α : Type} (t : Item α) (ns : List String) : Option (List String) :=
  (getNode t ns).map (fun u => u.children.map Item.name)

mutual
/-- All nodes of a tree (the node itself and, recursively, all nodes of its
children). -/
def Item.nodes {α : Type} : Item α → List (Item α)
  | .mk n d cs => .mk n d cs :: nodesList cs

/-- All nodes of a forest. -/
def nodesList {α : Type} : List (Item α) → List (Item α)
  | [] => []
  | c :: cs => c.nodes ++ nodesList cs
end

/-- `true` iff the tree has a node whose `name` is `p`. -/
def hasNodeNamed {α : Type} (t : Item α) (p : String) : Bool :=
  t.nodes.any (fun u => decide (u.name = p))

/-- `true` iff the tree has a node whose `name` is `p` and whose `data` is
the bag `x`. -/
def hasNodeData {α : Type} [DecidableEq α] (t : Item α) (p : String) (x : α) : Bool :=
  t.nodes.any (fun u => decide (u.name = p) && decide (u.data = some x))

/-- A canonical site path: a slash-terminated, site-relative path such as
`"/blog/post/"` (it begins and ends with `'/'`; the root document's path is
`"/"`). -/
def isCanonical (s : String) : Bool :=
  decide (s.data.head? = some '/') && decide (s.data.getLast? = some '/')

/-- Append `x` to `l` unless it is already present; the effect of
`find`-or-`push` (lines 128-133 of `generate.js`) on the list of children
names of one node. -/
def appendIfAbsent (l : List String) (x : String) : List String :=
  if x ∈ l then l else l ++ [x]

/-- Keep the first occurrence of every element not in `seen`, preserving
order. -/
def dedupAux : List String → List String → List String
  | _, [] => []
  | seen, x :: xs =>
    if x ∈ seen then dedupAux seen xs else x :: dedupAux (x :: seen) xs

/-- Keep the first occurrence of every element, preserving order. -/
def dedupFirst (l : List String) : List String := dedupAux [] l

/-- When the chain `ch` of node names of some document strictly extends the
chain `ns`, the next name after `ns` on it; `none` otherwise. -/
def chainNext (ch ns : List String) : Option String :=
  if ch.take ns.length = ns then ch[ns.length]? else none

/-- The children names that the tree pass produces, in order, at the node
reached along `ns`: the first occurrence, over the non-excluded documents
in input order, of each next-name contributed by a document whose chain
passes strictly beyond `ns`. -/
def occAt {α : Type} (docs : List (Doc α)) (ns : List String) : List String :=
  dedupFirst
    ((docs.filter (fun d => !d.navExclude)).filterMap (fun d => chainNext (chainOf d.name) ns))

/-- Like `occAt` but counting every document, excluded ones included: the
first-occurrence order over the whole input sequence, as claim C5 states
it. -/
def occAtAll {α : Type} (docs : List (Doc α)) (ns : List String) : List String :=
  dedupFirst (docs.filterMap (fun d => chainNext (chainOf d.name) ns))

/-- `c` is `p` extended by exactly one path segment followed by `'/'`:
`c = p ++ seg ++ "/"` for some slash-free `seg`. -/
def isSegChild (p c : String) : Bool :=
  decide (c.data.take p.data.length = p.data) &&
    (let rest := c.data.drop p.data.length
     !rest.isEmpty && decide (rest.getLast? = some '/') && !(rest.dropLast.contains '/'))

/-- Each name of `ch` extends the previous one (starting from `p`) by
exactly one segment followed by `'/'`. -/
def segPath (p : String) : List String → Bool
  | [] => true
  | c :: rest => isSegChild p c && segPath c rest

mutual
/-- Every parent-child pair of node names in the tree satisfies
`isSegChild`. -/
def goodFrom {α : Type} : Item α → Bool
  | .mk n _ cs => goodChildren n cs

/-- `goodFrom` for each tree of a forest, with parent name `p`. -/
def goodChildren {α : Type} : String → List (Item α) → Bool
  | _, [] => true
  | p, c :: cs => isSegChild p c.name && goodFrom c && goodChildren p cs
end

example : navTree ([] : List (Doc Nat)) = Item.mk "/" none [] := rfl

example : chainOf ("/blog/a/") = ["/blog/", "/blog/a/"] := by decide

example : chainOf ("/") = [] := by decide

example :
    navTree [Doc.mk ("/blog/a/") (1 : Nat) false, Doc.mk ("/blog/b/") 2 false] =
      Item.mk "/" none
        [Item.mk "/blog/" none
          [Item.mk "/blog/a/" (some 1) [], Item.mk "/blog/b/" (some 2) []]] := by
  rfl

/-! Basic unfolding and helper lemmas. -/

theorem name_mk {α : Type} (n : String) (d : Option α) (cs : List (Item α)) :
    (Item.mk n d cs).name = n := rfl

theorem data_mk {α : Type} (n : String) (d : Option α) (cs : List (Item α)) :
    (Item.mk n d cs).data = d := rfl

theorem children_mk {α : Type} (n : String) (d : Option α) (cs : List (Item α)) :
    (Item.mk n d cs).children = cs := rfl

theorem find?_cons {β : Type} (p : β → Bool) (a : β) (l : List β) :
    List.find? p (a :: l) = if p a then some a else List.find? p l := by
  cases h : p a <;> simp [List.find?, h]

theorem find?_append_single {β : Type} (p : β → Bool) (x : β) :
    ∀ l : List β, List.find? p (l ++ [x]) =
      match List.find? p l with
      | some a => some a
      | none => if p x then some x else none := by
  intro l
  induction l with
  | nil => simp [find?_cons]
  | cons a l ih =>
    rw [List.cons_append, find?_cons, find?_cons]
    by_cases h : p a = true
    · simp [h]
    · simp only [Bool.not_eq_true] at h
      simp [h, ih]

theorem find?_some_name {α : Type} {cs : List (Item α)} {n : String} {c : Item α}
    (h : cs.find? (fun c => decide (c.name = n)) = some c) : c.name = n := by
  have := List.find?_some h
  simpa using this

theorem mem_of_find?_name {α : Type} {cs : List (Item α)} {n : String} {c : Item α}
    (h : cs.find? (fun c => decide (c.name = n)) = some c) : c ∈ cs :=
  List.mem_of_find?_eq_some h

theorem find?_replaceFirst_eq {α : Type} {n : String} {x : Item α} (hx : x.name = n) :
    ∀ cs : List (Item α),
      (replaceFirst cs n x).find? (fun c => decide (c.name = n)) =
        (cs.find? (fun c => decide (c.name = n))).map (fun _ => x) := by
  intro cs
  induction cs with
  | nil => rfl
  | cons c cs ih =>
    by_cases h : c.name = n
    · simp [replaceFirst, h, find?_cons, hx]
    · simp [replaceFirst, h, find?_cons, ih]

theorem find?_replaceFirst_ne {α : Type} {n m : String} {x : Item α}
    (hx : x.name = n) (hnm : n ≠ m) :
    ∀ cs : List (Item α),
      (replaceFirst cs n x).find? (fun c => decide (c.name = m)) =
        cs.find? (fun c => decide (c.name = m)) := by
  intro cs
  induction cs with
  | nil => rfl
  | cons c cs ih =>
    by_cases h : c.name = n
    · have hcm : ¬ c.name = m := by rw [h]; exact hnm
      simp [replaceFirst, h, find?_cons, hcm, hx, hnm]
    · simp only [replaceFirst, if_neg h]
      by_cases hm : c.name = m
      · simp [find?_cons, hm]
      · simp [find?_cons, hm, ih]

theorem map_name_replaceFirst {α : Type} {n : String} {x : Item α} (hx : x.name = n) :
    ∀ cs : List (Item α),
      (replaceFirst cs n x).map Item.name = cs.map Item.name := by
  intro cs
  induction cs with
  | nil => rfl
  | cons c cs ih =>
    by_cases h : c.name = n
    · simp [replaceFirst, h, hx]
    · simp [replaceFirst, h, ih]

theorem name_insertNames {α : Type} (d : α) (ch : List String) (t : Item α) :
    (insertNames d ch t).name = t.name := by
  cases ch with
  | nil => rfl
  | cons n rest =>
    unfold insertNames
    cases t.children.find? (fun c => decide (c.name = n)) <;> rfl

theorem getNode_nil {α : Type} (t : Item α) : getNode t [] = some t := rfl

theorem getNode_cons {α : Type} (t : Item α) (n : String) (rest : List String) :
    getNode t (n :: rest) =
      match t.children.find? (fun c => decide (c.name = n)) with
      | some c => getNode c rest
      | none => none := rfl

/-! The effect of one insertion on the `data` field of every node. -/

theorem dataAt_nil {α : Type} (t : Item α) : dataAt t [] = some t.data := rfl

theorem dataAt_cons {α : Type} (t : Item α) (n : String) (rest : List String) :
    dataAt t (n :: rest) =
      match t.children.find? (fun c => decide (c.name = n)) with
      | some c => dataAt c rest
      | none => none := by
  unfold dataAt
  rw [getNode_cons]
  cases t.children.find? (fun c => decide (c.name = n)) <;> rfl

/-- After pushing the fresh node for a missing name, the first child of that
name is the freshly inserted subtree. -/
theorem find?_after_push {α : Type} {t : Item α} {m : String} (d : α) (chrest : List String)
    (hf : t.children.find? (fun c => decide (c.name = m)) = none) :
    (t.children ++ [insertNames d chrest (Item.mk m none [])]).find?
        (fun c => decide (c.name = m)) =
      some (insertNames d chrest (Item.mk m none [])) := by
  have happ := find?_append_single (fun c => decide (c.name = m))
    (insertNames d chrest (Item.mk m none [])) t.children
  rw [hf] at happ
  have hxname : (insertNames d chrest (Item.mk m none [])).name = m := by
    rw [name_insertNames]; rfl
  simpa [hxname] using happ

/-- Pushing the fresh node for a missing name does not change which child is
found under a different name. -/
theorem find?_after_push_ne {α : Type} {t : Item α} {m n : String} (d : α)
    (chrest : List String) (hmn : ¬ m = n) :
    (t.children ++ [insertNames d chrest (Item.mk m none [])]).find?
        (fun c => decide (c.name = n)) =
      t.children.find? (fun c => decide (c.name = n)) := by
  have happ := find?_append_single (fun c => decide (c.name = n))
    (insertNames d chrest (Item.mk m none [])) t.children
  have hxname : (insertNames d chrest (Item.mk m none [])).name = m := by
    rw [name_insertNames]; rfl
  rw [happ]
  cases hg : t.children.find? (fun c => decide (c.name = n)) with
  | some c₁ => rfl
  | none => simp [hxname, hmn]

/-- The first child found under the replaced name, after the replacement. -/
theorem find?_after_replace {α : Type} {t : Item α} {m : String} {c₀ : Item α} (d : α)
    (chrest : List String)
    (hf : t.children.find? (fun c => decide (c.name = m)) = some c₀) :
    (replaceFirst t.children m (insertNames d chrest c₀)).find?
        (fun c => decide (c.name = m)) = some (insertNames d chrest c₀) := by
  have hxname : (insertNames d chrest c₀).name = m := by
    rw [name_insertNames]; exact find?_some_name hf
  have hfind := find?_replaceFirst_eq hxname t.children
  rw [hf] at hfind
  exact hfind

/-- Inserting along `ch` stores the bag at the node reached along `ch`. -/
theorem dataAt_insertNames_self {α : Type} (d : α) :
    ∀ (ch : List String) (t : Item α), dataAt (insertNames d ch t) ch = some (some d) := by
  intro ch
  induction ch with
  | nil => intro t; simp [insertNames, dataAt, getNode_nil, data_mk]
  | cons m chrest ih =>
    intro t
    unfold insertNames
    cases hf : t.children.find? (fun c => decide (c.name = m)) with
    | some c₀ =>
      rw [dataAt_cons, children_mk, find?_after_replace d chrest hf]
      exact ih c₀
    | none =>
      rw [dataAt_cons, children_mk, find?_after_push d chrest hf]
      exact ih (Item.mk m none [])

/-- Inserting along `ch` leaves the `data` of the node reached along any
chain `ns` that is not an initial part of `ch` unchanged (in particular any
node off the insertion path). -/
theorem dataAt_insertNames_other {α : Type} (d : α) :
    ∀ (ch : List String) (t : Item α) (ns : List String),
      ¬ ch.take ns.length = ns →
      dataAt (insertNames d ch t) ns = dataAt t ns := by
  intro ch
  induction ch with
  | nil =>
    intro t ns h
    cases ns with
    | nil => simp at h
    | cons n rest =>
      rw [insertNames, dataAt_cons, dataAt_cons, children_mk]
  | cons m chrest ih =>
    intro t ns h
    cases ns with
    | nil => simp at h
    | cons n rest =>
      rw [List.length_cons, List.take_succ_cons] at h
      by_cases hmn : m = n
      · subst hmn
        have hrest : ¬ chrest.take rest.length = rest := by
          intro hr; exact h (by rw [hr])
        unfold insertNames
        cases hf : t.children.find? (fun c => decide (c.name = m)) with
        | some c₀ =>
          rw [dataAt_cons, children_mk, find?_after_replace d chrest hf,
            dataAt_cons, hf]
          exact ih c₀ rest hrest
        | none =>
          rw [dataAt_cons, children_mk, find?_after_push d chrest hf,
            dataAt_cons, hf]
          show dataAt (insertNames d chrest (Item.mk m none [])) rest = none
          rw [ih (Item.mk m none []) rest hrest]
          cases rest with
          | nil => exact absurd rfl hrest
          | cons r rest' => rfl
      · unfold insertNames
        cases hf : t.children.find? (fun c => decide (c.name = m)) with
        | some c₀ =>
          have hxname : (insertNames d chrest c₀).name = m := by
            rw [name_insertNames]; exact find?_some_name hf
          rw [dataAt_cons, children_mk, find?_replaceFirst_ne hxname hmn,
            dataAt_cons]
        | none =>
          rw [dataAt_cons, children_mk, find?_after_push_ne d chrest hmn,
            dataAt_cons]

/-- Inserting along `ch` creates every strictly shorter initial chain `ns`
of `ch` as a node: afterwards the node at `ns` exists, with its old bag if
it already existed and with the empty bag otherwise. -/
theorem dataAt_insertNames_ancestor {α : Type} (d : α) :
    ∀ (ch : List String) (t : Item α) (ns : List String),
      ch.take ns.length = ns → ns.length < ch.length →
      dataAt (insertNames d ch t) ns = some ((dataAt t ns).getD none) := by
  intro ch
  induction ch with
  | nil =>
    intro t ns _ hlt
    exact absurd hlt (by simp)
  | cons m chrest ih =>
    intro t ns htake hlt
    cases ns with
    | nil =>
      unfold insertNames
      cases hf : t.children.find? (fun c => decide (c.name = m)) <;>
        simp [dataAt, getNode_nil, data_mk]
    | cons n rest =>
      rw [List.length_cons, List.take_succ_cons] at htake
      have hmn : m = n := (List.cons_eq_cons.mp htake).1
      have hrest : chrest.take rest.length = rest := (List.cons_eq_cons.mp htake).2
      have hlt' : rest.length < chrest.length := by
        simpa using hlt
      subst hmn
      unfold insertNames
      cases hf : t.children.find? (fun c => decide (c.name = m)) with
      | some c₀ =>
        rw [dataAt_cons, children_mk, find?_after_replace d chrest hf,
          dataAt_cons, hf]
        exact ih c₀ rest hrest hlt'
      | none =>
        rw [dataAt_cons, children_mk, find?_after_push d chrest hf,
          dataAt_cons, hf]
        show dataAt (insertNames d chrest (Item.mk m none [])) rest = some none
        rw [ih (Item.mk m none []) rest hrest hlt']
        cases rest with
        | nil => rfl
        | cons r rest' => rfl

/-! The effect of one insertion on the children names of every node. -/

theorem childNamesAt_nil {α : Type} (t : Item α) :
    childNamesAt t [] = some (t.children.map Item.name) := rfl

theorem childNamesAt_cons {α : Type} (t : Item α) (n : String) (rest : List String) :
    childNamesAt t (n :: rest) =
      match t.children.find? (fun c => decide (c.name = n)) with
      | some c => childNamesAt c rest
      | none => none := by
  unfold childNamesAt
  rw [getNode_cons]
  cases t.children.find? (fun c => decide (c.name = n)) <;> rfl

theorem not_mem_map_name_of_find?_none {α : Type} {cs : List (Item α)} {n : String}
    (hf : cs.find? (fun c => decide (c.name = n)) = none) : n ∉ cs.map Item.name := by
  intro hmem
  obtain ⟨c, hc, hcn⟩ := List.mem_map.mp hmem
  have := List.find?_eq_none.mp hf c hc
  simp [hcn] at this

theorem mem_map_name_of_find?_some {α : Type} {cs : List (Item α)} {n : String}
    {c₀ : Item α} (hf : cs.find? (fun c => decide (c.name = n)) = some c₀) :
    n ∈ cs.map Item.name :=
  List.mem_map.mpr ⟨c₀, mem_of_find?_name hf, find?_some_name hf⟩

/-- Inserting along `ch` leaves the children of the node reached along `ch`
unchanged (creating it with no children when absent). -/
theorem childNamesAt_insertNames_self {α : Type} (d : α) :
    ∀ (ch : List String) (t : Item α),
      childNamesAt (insertNames d ch t) ch = some ((childNamesAt t ch).getD []) := by
  intro ch
  induction ch with
  | nil => intro t; rfl
  | cons m chrest ih =>
    intro t
    unfold insertNames
    cases hf : t.children.find? (fun c => decide (c.name = m)) with
    | some c₀ =>
      rw [childNamesAt_cons, children_mk, find?_after_replace d chrest hf]
      have h2 : childNamesAt t (m :: chrest) = childNamesAt c₀ chrest := by
        rw [childNamesAt_cons, hf]
      rw [h2]
      exact ih c₀
    | none =>
      rw [childNamesAt_cons, children_mk, find?_after_push d chrest hf]
      have h2 : childNamesAt t (m :: chrest) = none := by
        rw [childNamesAt_cons, hf]
      rw [h2]
      show childNamesAt (insertNames d chrest (Item.mk m none [])) chrest = some []
      rw [ih (Item.mk m none [])]
      cases chrest with
      | nil => rfl
      | cons r rest' => rfl

/-- Inserting along `ch` appends the next chain name (when absent) to the
children of the node reached along any strictly shorter initial chain `ns`
of `ch`, creating that node if needed; existing children and their order
are kept. -/
theorem childNamesAt_insertNames_ancestor {α : Type} (d : α) :
    ∀ (ch : List String) (t : Item α) (ns : List String),
      ch.take ns.length = ns → ns.length < ch.length →
      childNamesAt (insertNames d ch t) ns =
        some (appendIfAbsent ((childNamesAt t ns).getD []) (ch.getD ns.length (""))) := by
  intro ch
  induction ch with
  | nil =>
    intro t ns _ hlt
    exact absurd hlt (by simp)
  | cons m chrest ih =>
    intro t ns htake hlt
    cases ns with
    | nil =>
      unfold insertNames
      cases hf : t.children.find? (fun c => decide (c.name = m)) with
      | some c₀ =>
        have hxname : (insertNames d chrest c₀).name = m := by
          rw [name_insertNames]; exact find?_some_name hf
        rw [childNamesAt_nil, children_mk, map_name_replaceFirst hxname]
        have hmem : m ∈ t.children.map Item.name := mem_map_name_of_find?_some hf
        rw [childNamesAt_nil]
        simp [appendIfAbsent, hmem]
      | none =>
        have hxname : (insertNames d chrest (Item.mk m none [])).name = m := by
          rw [name_insertNames]; rfl
        rw [childNamesAt_nil, children_mk, childNamesAt_nil]
        have hmem : m ∉ t.children.map Item.name := not_mem_map_name_of_find?_none hf
        simp [appendIfAbsent, hmem, hxname]
    | cons n rest =>
      rw [List.length_cons, List.take_succ_cons] at htake
      have hmn : m = n := (List.cons_eq_cons.mp htake).1
      have hrest : chrest.take rest.length = rest := (List.cons_eq_cons.mp htake).2
      have hlt' : rest.length < chrest.length := by simpa using hlt
      subst hmn
      unfold insertNames
      cases hf : t.children.find? (fun c => decide (c.name = m)) with
      | some c₀ =>
        rw [childNamesAt_cons, children_mk, find?_after_replace d chrest hf]
        have h2 : childNamesAt t (m :: rest) = childNamesAt c₀ rest := by
          rw [childNamesAt_cons, hf]
        rw [h2, List.length_cons, List.getD_cons_succ]
        exact ih c₀ rest hrest hlt'
      | none =>
        rw [childNamesAt_cons, children_mk, find?_after_push d chrest hf]
        have h2 : childNamesAt t (m :: rest) = none := by
          rw [childNamesAt_cons, hf]
        rw [h2, List.length_cons, List.getD_cons_succ]
        show childNamesAt (insertNames d chrest (Item.mk m none [])) rest =
          some (appendIfAbsent [] (chrest.getD rest.length ("")))
        rw [ih (Item.mk m none []) rest hrest hlt']
        cases rest with
        | nil => rfl
        | cons r rest' => rfl

/-- Inserting along `ch` leaves the children of the node reached along any
chain `ns` that is not an initial part of `ch` unchanged. -/
theorem childNamesAt_insertNames_other {α : Type} (d : α) :
    ∀ (ch : List String) (t : Item α) (ns : List String),
      ¬ ch.take ns.length = ns →
      childNamesAt (insertNames d ch t) ns = childNamesAt t ns := by
  intro ch
  induction ch with
  | nil =>
    intro t ns h
    cases ns with
    | nil => simp at h
    | cons n rest =>
      rw [insertNames, childNamesAt_cons, childNamesAt_cons, children_mk]
  | cons m chrest ih =>
    intro t ns h
    cases ns with
    | nil => simp at h
    | cons n rest =>
      rw [List.length_cons, List.take_succ_cons] at h
      by_cases hmn : m = n
      · subst hmn
        have hrest : ¬ chrest.take rest.length = rest := by
          intro hr; exact h (by rw [hr])
        unfold insertNames
        cases hf : t.children.find? (fun c => decide (c.name = m)) with
        | some c₀ =>
          rw [childNamesAt_cons, children_mk, find?_after_replace d chrest hf,
            childNamesAt_cons, hf]
          exact ih c₀ rest hrest
        | none =>
          rw [childNamesAt_cons, children_mk, find?_after_push d chrest hf,
            childNamesAt_cons, hf]
          show childNamesAt (insertNames d chrest (Item.mk m none [])) rest = none
          rw [ih (Item.mk m none []) rest hrest]
          cases rest with
          | nil => exact absurd rfl hrest
          | cons r rest' => rfl
      · unfold insertNames
        cases hf : t.children.find? (fun c => decide (c.name = m)) with
        | some c₀ =>
          have hxname : (insertNames d chrest c₀).name = m := by
            rw [name_insertNames]; exact find?_some_name hf
          rw [childNamesAt_cons, children_mk, find?_replaceFirst_ne hxname hmn,
            childNamesAt_cons]
        | none =>
          rw [childNamesAt_cons, children_mk, find?_after_push_ne d chrest hmn,
            childNamesAt_cons]

/-- When the node at `ch` already exists, inserting along `ch` replaces
exactly its `data` field: same name, same children. -/
theorem getNode_insertNames_exists {α : Type} (d : α) :
    ∀ (ch : List String) (t u : Item α),
      getNode t ch = some u →
      getNode (insertNames d ch t) ch = some (Item.mk u.name (some d) u.children) := by
  intro ch
  induction ch with
  | nil =>
    intro t u h
    have ht : t = u := Option.some.inj h
    subst ht
    cases t with
    | mk n dd cs => rfl
  | cons m chrest ih =>
    intro t u h
    rw [getNode_cons] at h
    cases hf : t.children.find? (fun c => decide (c.name = m)) with
    | none => rw [hf] at h; exact absurd h (by simp)
    | some c₀ =>
      rw [hf] at h
      unfold insertNames
      rw [hf, getNode_cons, children_mk, find?_after_replace d chrest hf]
      exact ih c₀ u h

/-! Names and membership of reached nodes. -/

theorem getLast?_cons_exists {β : Type} : ∀ (l : List β) (r : β), ∃ y, (r :: l).getLast? = some y := by
  intro l
  induction l with
  | nil => intro r; exact ⟨r, rfl⟩
  | cons s l ih => intro r; rw [List.getLast?_cons_cons]; exact ih s

/-- A node reached along a nonempty chain bears the last name of the chain;
along the empty chain it is the root itself. -/
theorem name_of_getNode {α : Type} :
    ∀ (ns : List String) (t u : Item α),
      getNode t ns = some u → u.name = ns.getLast?.getD t.name := by
  intro ns
  induction ns with
  | nil =>
    intro t u h
    have ht : t = u := Option.some.inj h
    subst ht
    rfl
  | cons n rest ih =>
    intro t u h
    rw [getNode_cons] at h
    cases hf : t.children.find? (fun c => decide (c.name = n)) with
    | none => rw [hf] at h; exact absurd h (by simp)
    | some c₀ =>
      rw [hf] at h
      have hn : c₀.name = n := find?_some_name hf
      have := ih c₀ u h
      cases rest with
      | nil => simpa [hn] using this
      | cons r rest' =>
        obtain ⟨y, hy⟩ := getLast?_cons_exists rest' r
        rw [List.getLast?_cons_cons, hy]
        rw [hy] at this
        simpa using this

theorem nodes_mk {α : Type} (n : String) (d : Option α) (cs : List (Item α)) :
    (Item.mk n d cs).nodes = Item.mk n d cs :: nodesList cs := by
  rw [Item.nodes]

theorem nodesList_cons {α : Type} (c : Item α) (cs : List (Item α)) :
    nodesList (c :: cs) = c.nodes ++ nodesList cs := by
  rw [nodesList]

theorem mem_nodesList_of_mem {α : Type} {u c : Item α} :
    ∀ {cs : List (Item α)}, c ∈ cs → u ∈ c.nodes → u ∈ nodesList cs := by
  intro cs
  induction cs with
  | nil => intro h; exact absurd h (by simp)
  | cons c' cs ih =>
    intro hmem hu
    rw [nodesList_cons]
    rcases List.mem_cons.mp hmem with h | h
    · subst h; exact List.mem_append_left _ hu
    · exact List.mem_append_right _ (ih h hu)

/-- A node reached along some chain is a node of the tree. -/
theorem mem_nodes_of_getNode {α : Type} :
    ∀ (ns : List String) (t u : Item α), getNode t ns = some u → u ∈ t.nodes := by
  intro ns
  induction ns with
  | nil =>
    intro t u h
    have ht : t = u := Option.some.inj h
    subst ht
    cases t with
    | mk n d cs => rw [nodes_mk]; exact List.mem_cons_self _ _
  | cons n rest ih =>
    intro t u h
    rw [getNode_cons] at h
    cases hf : t.children.find? (fun c => decide (c.name = n)) with
    | none => rw [hf] at h; exact absurd h (by simp)
    | some c₀ =>
      rw [hf] at h
      have hc₀ : c₀ ∈ t.children := mem_of_find?_name hf
      have hu : u ∈ c₀.nodes := ih c₀ u h
      cases t with
      | mk nm d cs =>
        rw [nodes_mk]
        exact List.mem_cons_of_mem _ (mem_nodesList_of_mem hc₀ hu)

theorem hasNodeData_iff {α : Type} [DecidableEq α] {t : Item α} {p : String} {x : α} :
    hasNodeData t p x = true ↔ ∃ u ∈ t.nodes, u.name = p ∧ u.data = some x := by
  simp [hasNodeData, List.any_eq_true]

theorem hasNodeNamed_iff {α : Type} {t : Item α} {p : String} :
    hasNodeNamed t p = true ↔ ∃ u ∈ t.nodes, u.name = p := by
  simp [hasNodeNamed, List.any_eq_true]

/-! Facts about `splitOnChar` and `joinChar` (the path arithmetic of the
loop). -/

theorem joinChar_cons_cons (c : Char) (s r : List Char) (rest : List (List Char)) :
    joinChar c (s :: r :: rest) = s ++ c :: joinChar c (r :: rest) := rfl

theorem joinChar_single (c : Char) (s : List Char) : joinChar c [s] = s := rfl

theorem joinChar_append_single (c : Char) :
    ∀ (pre : List (List Char)), pre ≠ [] → ∀ s,
      joinChar c (pre ++ [s]) = joinChar c pre ++ c :: s := by
  intro pre
  induction pre with
  | nil => intro h; exact absurd rfl h
  | cons p pre' ih =>
    intro _ s
    cases pre' with
    | nil => rfl
    | cons q pre'' =>
      have hstep : joinChar c ((p :: q :: pre'') ++ [s]) =
          p ++ c :: joinChar c ((q :: pre'') ++ [s]) := rfl
      rw [hstep, ih (by simp) s, joinChar_cons_cons]
      simp

theorem splitOnChar_ne_nil (c : Char) : ∀ l : List Char, splitOnChar c l ≠ [] := by
  intro l
  induction l with
  | nil => simp [splitOnChar]
  | cons a rest ih =>
    cases h : splitOnChar c rest with
    | nil => exact absurd h ih
    | cons x t =>
      by_cases hac : a = c <;> simp [splitOnChar, h, hac]

theorem splitOnChar_exists_cons (c : Char) (l : List Char) :
    ∃ h₀ t, splitOnChar c l = h₀ :: t := by
  cases h : splitOnChar c l with
  | nil => exact absurd h (splitOnChar_ne_nil c l)
  | cons x t => exact ⟨x, t, rfl⟩

theorem splitOnChar_cons_of_sep {c : Char} {rest : List Char} {h₀ : List Char}
    {t : List (List Char)} (h : splitOnChar c rest = h₀ :: t) :
    splitOnChar c (c :: rest) = [] :: h₀ :: t := by
  simp [splitOnChar, h]

theorem splitOnChar_cons_of_ne {a c : Char} {rest : List Char} {h₀ : List Char}
    {t : List (List Char)} (hac : ¬ a = c) (h : splitOnChar c rest = h₀ :: t) :
    splitOnChar c (a :: rest) = (a :: h₀) :: t := by
  simp [splitOnChar, h, hac]

theorem joinChar_splitOnChar (c : Char) : ∀ l : List Char, joinChar c (splitOnChar c l) = l := by
  intro l
  induction l with
  | nil => rfl
  | cons a rest ih =>
    obtain ⟨h₀, t, h⟩ := splitOnChar_exists_cons c rest
    rw [h] at ih
    by_cases hac : a = c
    · subst hac
      rw [splitOnChar_cons_of_sep h, joinChar_cons_cons, ih]
      rfl
    · rw [splitOnChar_cons_of_ne hac h]
      cases t with
      | nil =>
        rw [joinChar_single]
        rw [joinChar_single] at ih
        rw [ih]
      | cons t₁ t' =>
        rw [joinChar_cons_cons]
        rw [joinChar_cons_cons] at ih
        rw [← ih]
        simp

theorem two_le_length_split {c : Char} : ∀ {l : List Char}, c ∈ l →
    2 ≤ (splitOnChar c l).length := by
  intro l
  induction l with
  | nil => intro hc; simp at hc
  | cons a rest ih =>
    intro hc
    obtain ⟨h₀, t, h⟩ := splitOnChar_exists_cons c rest
    by_cases hac : a = c
    · subst hac
      rw [splitOnChar_cons_of_sep h]
      simp
    · have hcrest : c ∈ rest := by
        rcases List.mem_cons.mp hc with h' | h'
        · exact absurd h'.symm hac
        · exact h'
      rw [splitOnChar_cons_of_ne hac h]
      have := ih hcrest
      rw [h] at this
      simpa using this

theorem getLast?_splitOnChar {c : Char} :
    ∀ l : List Char, l.getLast? = some c → (splitOnChar c l).getLast? = some [] := by
  intro l
  induction l with
  | nil => intro h; simp at h
  | cons a rest ih =>
    intro hlast
    cases rest with
    | nil =>
      have hac : a = c := by simpa using hlast
      subst hac
      rw [splitOnChar_cons_of_sep (show splitOnChar a [] = [] :: [] from rfl)]
      rfl
    | cons r rest' =>
      have hlast' : (r :: rest').getLast? = some c := by
        rwa [List.getLast?_cons_cons] at hlast
      have hcmem : c ∈ r :: rest' := List.mem_of_mem_getLast? hlast'
      have h2 : 2 ≤ (splitOnChar c (r :: rest')).length := two_le_length_split hcmem
      obtain ⟨h₀, t, h⟩ := splitOnChar_exists_cons c (r :: rest')
      have ihh : (splitOnChar c (r :: rest')).getLast? = some [] := ih hlast'
      have ht : ∃ t₁ t', t = t₁ :: t' := by
        cases t with
        | nil => rw [h] at h2; simp at h2
        | cons t₁ t' => exact ⟨t₁, t', rfl⟩
      obtain ⟨t₁, t', ht'⟩ := ht
      subst ht'
      by_cases hac : a = c
      · subst hac
        rw [splitOnChar_cons_of_sep h, List.getLast?_cons_cons, ← h]
        exact ihh
      · rw [splitOnChar_cons_of_ne hac h, List.getLast?_cons_cons]
        rw [h, List.getLast?_cons_cons] at ihh
        exact ihh

theorem sep_not_mem_split (c : Char) :
    ∀ (l : List Char) (s : List Char), s ∈ splitOnChar c l → c ∉ s := by
  intro l
  induction l with
  | nil =>
    intro s hs
    simp [splitOnChar] at hs
    subst hs
    simp
  | cons a rest ih =>
    intro s hs
    obtain ⟨h₀, t, h⟩ := splitOnChar_exists_cons c rest
    by_cases hac : a = c
    · subst hac
      rw [splitOnChar_cons_of_sep h] at hs
      rcases List.mem_cons.mp hs with h' | h'
      · subst h'; simp
      · exact ih s (h ▸ h')
    · rw [splitOnChar_cons_of_ne hac h] at hs
      rcases List.mem_cons.mp hs with h' | h'
      · subst h'
        intro hmem
        rcases List.mem_cons.mp hmem with h'' | h''
        · exact hac h''.symm
        · exact ih h₀ (by rw [h]; exact List.mem_cons_self _ _) h''
      · exact ih s (by rw [h]; exact List.mem_cons_of_mem _ h')

/-! `chainOf` in accumulator form, and facts about chains of canonical
names. -/

theorem range_drop_one : ∀ n : Nat, (List.range n).drop 1 = List.range' 1 (n - 1) := by
  intro n
  cases n with
  | zero => rfl
  | succ k =>
    rw [List.range_eq_range', List.range'_succ]
    simp

theorem chainAcc_eq_map_range' :
    ∀ (rest pre : List (List Char)), pre ≠ [] →
      (List.range' pre.length rest.length).map
          (fun i => (⟨joinChar '/' (List.take (i + 1) (pre ++ rest)) ++ ['/']⟩ : String))
        = chainAcc (joinChar '/' pre) rest := by
  intro rest
  induction rest with
  | nil => intro pre _; rfl
  | cons seg rest' ih =>
    intro pre hpre
    rw [List.length_cons, List.range'_succ, List.map_cons]
    have hlist : pre ++ seg :: rest' = (pre ++ [seg]) ++ rest' := by simp
    congr 1
    · have htake : List.take (pre.length + 1) (pre ++ seg :: rest') = pre ++ [seg] := by
        rw [List.take_append, List.take_succ_cons, List.take_zero]
      rw [htake, joinChar_append_single '/' pre hpre seg]
      congr 1
      simp
    · have hlen : pre.length + 1 = (pre ++ [seg]).length := by simp
      simp only [hlist, hlen]
      rw [ih (pre ++ [seg]) (by simp)]
      rw [joinChar_append_single '/' pre hpre seg]

theorem chainOf_eq_chainAcc (name : String) :
    chainOf name =
      match partsOf name with
      | [] => []
      | p₀ :: prest => chainAcc p₀ prest := by
  unfold chainOf
  cases hp : partsOf name with
  | nil => simp
  | cons p₀ prest =>
    simp only [hp]
    rw [List.length_cons, range_drop_one, Nat.add_sub_cancel]
    have h := chainAcc_eq_map_range' prest [p₀] (by simp)
    simp only [List.length_cons, List.length_nil, List.singleton_append,
      joinChar_single] at h
    exact h

theorem data_shape_of_canonical {name : String} (h : isCanonical name = true) :
    ∃ rest, name.data = '/' :: rest ∧ name.data.getLast? = some '/' := by
  unfold isCanonical at h
  simp only [Bool.and_eq_true, decide_eq_true_eq] at h
  obtain ⟨h1, h2⟩ := h
  cases hd : name.data with
  | nil => rw [hd] at h1; simp at h1
  | cons a rest =>
    rw [hd] at h1 h2
    simp only [List.head?_cons, Option.some.injEq] at h1
    subst h1
    exact ⟨rest, rfl, h2⟩

theorem parts_shape_of_canonical {name : String} (h : isCanonical name = true) :
    ∃ prest, partsOf name = [] :: prest := by
  obtain ⟨rest, hd, _⟩ := data_shape_of_canonical h
  obtain ⟨h₀, t, hsplit⟩ := splitOnChar_exists_cons '/' rest
  unfold partsOf
  rw [hd, splitOnChar_cons_of_sep hsplit, List.dropLast_cons₂]
  exact ⟨_, rfl⟩

theorem name_data_eq_join {name : String} (h : isCanonical name = true) :
    name.data = joinChar '/' (partsOf name) ++ ['/'] := by
  obtain ⟨rest, hd, hlast⟩ := data_shape_of_canonical h
  have hsp : (splitOnChar '/' name.data).getLast? = some [] :=
    getLast?_splitOnChar name.data hlast
  have hne : splitOnChar '/' name.data ≠ [] := splitOnChar_ne_nil _ _
  have hsplit_eq : splitOnChar '/' name.data = partsOf name ++ [[]] := by
    unfold partsOf
    conv_lhs => rw [← List.dropLast_append_getLast hne]
    congr 1
    have := List.getLast?_eq_getLast (splitOnChar '/' name.data) hne
    rw [this] at hsp
    exact congrArg (fun x => [x]) (Option.some.inj hsp)
  obtain ⟨prest, hp⟩ := parts_shape_of_canonical h
  have hjoin := joinChar_splitOnChar '/' name.data
  rw [hsplit_eq, joinChar_append_single '/' (partsOf name) (by rw [hp]; simp) []] at hjoin
  exact hjoin.symm

theorem two_le_parts_of_canonical {name : String} (h : isCanonical name = true)
    (hne : ¬ name = "/") : 2 ≤ (partsOf name).length := by
  obtain ⟨prest, hp⟩ := parts_shape_of_canonical h
  by_contra hlt
  have hpr : prest = [] := by
    rw [hp] at hlt
    cases prest with
    | nil => rfl
    | cons x xs => simp at hlt
  subst hpr
  have hd := name_data_eq_join h
  rw [hp] at hd
  have hdata : name.data = ['/'] := by simpa [joinChar_single] using hd
  have : name = "/" := by
    calc name = ⟨name.data⟩ := rfl
    _ = ⟨['/']⟩ := by rw [hdata]
    _ = "/" := rfl
  exact hne this

theorem chainAcc_getLast? :
    ∀ (rest : List (List Char)) (acc : List Char), rest ≠ [] →
      (chainAcc acc rest).getLast? =
        some ⟨acc ++ '/' :: (joinChar '/' rest ++ ['/'])⟩ := by
  intro rest
  induction rest with
  | nil => intro acc h; exact absurd rfl h
  | cons seg rest' ih =>
    intro acc _
    cases rest' with
    | nil => rfl
    | cons r rest'' =>
      have hz : ∃ z zs, chainAcc (acc ++ '/' :: seg) (r :: rest'') = z :: zs :=
        ⟨_, _, rfl⟩
      obtain ⟨z, zs, hzz⟩ := hz
      rw [show chainAcc acc (seg :: r :: rest'') =
        (⟨acc ++ '/' :: (seg ++ ['/'])⟩ : String) ::
          chainAcc (acc ++ '/' :: seg) (r :: rest'') from rfl]
      rw [hzz, List.getLast?_cons_cons, ← hzz, ih (acc ++ '/' :: seg) (by simp)]
      rw [joinChar_cons_cons]
      congr 1
      simp

theorem chain_getLast?_eq {name : String} (h : isCanonical name = true)
    (hne : ¬ name = "/") : (chainOf name).getLast? = some name := by
  rw [chainOf_eq_chainAcc]
  obtain ⟨prest, hp⟩ := parts_shape_of_canonical h
  have h2 := two_le_parts_of_canonical h hne
  rw [hp] at h2
  have hprest : prest ≠ [] := by
    cases prest with
    | nil => simp at h2
    | cons x xs => simp
  rw [hp]
  show (chainAcc [] prest).getLast? = some name
  rw [chainAcc_getLast? prest [] hprest]
  congr 1
  have hd := name_data_eq_join h
  rw [hp] at hd
  have hj : joinChar '/' ([] :: prest) = [] ++ '/' :: joinChar '/' prest := by
    cases prest with
    | nil => exact absurd rfl hprest
    | cons r rest'' => rw [joinChar_cons_cons]
  rw [hj] at hd
  have hname : name = ⟨[] ++ '/' :: (joinChar '/' prest ++ ['/'])⟩ := by
    calc name = ⟨name.data⟩ := rfl
    _ = ⟨[] ++ '/' :: (joinChar '/' prest ++ ['/'])⟩ := by rw [hd]; simp
  exact hname.symm

theorem chain_eq_nil_iff {name : String} (h : isCanonical name = true) :
    chainOf name = [] ↔ name = "/" := by
  constructor
  · intro hnil
    by_contra hne
    have := chain_getLast?_eq h hne
    rw [hnil] at this
    simp at this
  · intro hr
    subst hr
    rfl

theorem chain_inj {n₁ n₂ : String} (h₁ : isCanonical n₁ = true)
    (h₂ : isCanonical n₂ = true) (heq : chainOf n₁ = chainOf n₂) : n₁ = n₂ := by
  by_cases ha : n₁ = "/"
  · subst ha
    have : chainOf n₂ = [] := by rw [← heq]; rfl
    exact ((chain_eq_nil_iff h₂).mp this).symm
  · have hb : ¬ n₂ = "/" := by
      intro hb
      subst hb
      rw [(chain_eq_nil_iff h₂).mpr rfl] at heq
      exact ha ((chain_eq_nil_iff h₁).mp heq)
    have e₁ := chain_getLast?_eq h₁ ha
    have e₂ := chain_getLast?_eq h₂ hb
    rw [heq, e₂] at e₁
    exact (Option.some.inj e₁).symm

theorem two_le_data_length_of_mem_chainAcc :
    ∀ (rest : List (List Char)) (acc : List Char) (p : String),
      p ∈ chainAcc acc rest → 2 ≤ p.data.length := by
  intro rest
  induction rest with
  | nil => intro acc p hp; simp [chainAcc] at hp
  | cons seg rest' ih =>
    intro acc p hp
    rw [show chainAcc acc (seg :: rest') =
      (⟨acc ++ '/' :: (seg ++ ['/'])⟩ : String) ::
        chainAcc (acc ++ '/' :: seg) rest' from rfl] at hp
    rcases List.mem_cons.mp hp with h' | h'
    · subst h'
      show 2 ≤ (acc ++ '/' :: (seg ++ ['/'])).length
      simp
      omega
    · exact ih (acc ++ '/' :: seg) p h'

theorem mem_chain_ne_root {name p : String} (hp : p ∈ chainOf name) : ¬ p = "/" := by
  intro h
  subst h
  rw [chainOf_eq_chainAcc] at hp
  cases hparts : partsOf name with
  | nil => rw [hparts] at hp; simp at hp
  | cons p₀ prest =>
    rw [hparts] at hp
    have h2 := two_le_data_length_of_mem_chainAcc prest p₀ ("/") hp
    have : (("/") : String).data = ['/'] := rfl
    rw [this] at h2
    simp at h2

/-! The one-segment-deeper invariant along chains and trees. -/

theorem isSegChild_extend (acc seg : List Char) (hseg : '/' ∉ seg) :
    isSegChild ⟨acc ++ ['/']⟩ ⟨acc ++ '/' :: (seg ++ ['/'])⟩ = true := by
  have hc : (⟨acc ++ '/' :: (seg ++ ['/'])⟩ : String).data
      = (acc ++ ['/']) ++ (seg ++ ['/']) := by simp
  have hcontains : (seg.contains '/') = false := by
    cases helem : List.elem '/' seg with
    | false => exact helem
    | true => exact absurd (List.elem_iff.mp helem) hseg
  unfold isSegChild
  rw [hc]
  show (decide (List.take (acc ++ ['/']).length ((acc ++ ['/']) ++ (seg ++ ['/']))
      = (acc ++ ['/']))
    && _) = true
  rw [List.take_left, List.drop_left]
  simp [List.getLast?_concat, List.dropLast_concat, hcontains, hseg]

theorem chainAcc_segPath :
    ∀ (rest : List (List Char)) (acc : List Char),
      (∀ s ∈ rest, '/' ∉ s) → segPath ⟨acc ++ ['/']⟩ (chainAcc acc rest) = true := by
  intro rest
  induction rest with
  | nil => intro acc _; rfl
  | cons seg rest' ih =>
    intro acc hseg
    have h1 : isSegChild ⟨acc ++ ['/']⟩ ⟨acc ++ '/' :: (seg ++ ['/'])⟩ = true :=
      isSegChild_extend acc seg (hseg seg (List.mem_cons_self _ _))
    have hx : (⟨acc ++ '/' :: (seg ++ ['/'])⟩ : String)
        = ⟨(acc ++ '/' :: seg) ++ ['/']⟩ := by congr 1; simp
    have h2 : segPath ⟨acc ++ '/' :: (seg ++ ['/'])⟩
        (chainAcc (acc ++ '/' :: seg) rest') = true := by
      rw [hx]
      exact ih (acc ++ '/' :: seg) (fun s hs => hseg s (List.mem_cons_of_mem _ hs))
    show (isSegChild ⟨acc ++ ['/']⟩ ⟨acc ++ '/' :: (seg ++ ['/'])⟩
      && segPath ⟨acc ++ '/' :: (seg ++ ['/'])⟩
          (chainAcc (acc ++ '/' :: seg) rest')) = true
    rw [h1, h2]
    rfl

/-- Along the chain of a canonical name, each node name is one segment
deeper than the previous one, starting from the root name. -/
theorem segPath_chainOf {name : String} (h : isCanonical name = true) :
    segPath ("/") (chainOf name) = true := by
  rw [chainOf_eq_chainAcc]
  obtain ⟨prest, hp⟩ := parts_shape_of_canonical h
  rw [hp]
  show segPath ("/") (chainAcc [] prest) = true
  have hroot : ("/" : String) = ⟨([] : List Char) ++ ['/']⟩ := rfl
  rw [hroot]
  apply chainAcc_segPath
  intro s hs
  have hs' : s ∈ partsOf name := by rw [hp]; exact List.mem_cons_of_mem _ hs
  have hs'' : s ∈ splitOnChar '/' name.data :=
    List.Sublist.mem hs' (List.dropLast_sublist _)
  exact sep_not_mem_split '/' name.data s hs''

theorem goodFrom_mk {α : Type} (n : String) (d : Option α) (cs : List (Item α)) :
    goodFrom (Item.mk n d cs) = goodChildren n cs := by
  rw [goodFrom]

theorem goodChildren_nil {α : Type} (p : String) :
    goodChildren p ([] : List (Item α)) = true := by
  rw [goodChildren]

theorem goodChildren_cons {α : Type} (p : String) (c : Item α) (cs : List (Item α)) :
    goodChildren p (c :: cs)
      = (isSegChild p c.name && goodFrom c && goodChildren p cs) := by
  rw [goodChildren]

theorem goodChildren_of_mem {α : Type} {p : String} {cs : List (Item α)}
    (hg : goodChildren p cs = true) :
    ∀ c ∈ cs, isSegChild p c.name = true ∧ goodFrom c = true := by
  induction cs with
  | nil => intro c hc; simp at hc
  | cons c' cs ih =>
    rw [goodChildren_cons] at hg
    simp only [Bool.and_eq_true] at hg
    intro c hc
    rcases List.mem_cons.mp hc with h' | h'
    · subst h'; exact ⟨hg.1.1, hg.1.2⟩
    · exact ih hg.2 c h'

theorem goodChildren_replaceFirst {α : Type} {p n : String} {x : Item α}
    (hx : x.name = n) (hgx : goodFrom x = true) :
    ∀ cs : List (Item α), goodChildren p cs = true →
      goodChildren p (replaceFirst cs n x) = true := by
  intro cs
  induction cs with
  | nil => intro h; exact h
  | cons c cs ih =>
    intro hg
    rw [goodChildren_cons] at hg
    simp only [Bool.and_eq_true] at hg
    unfold replaceFirst
    by_cases hcn : c.name = n
    · rw [if_pos hcn, goodChildren_cons]
      have : isSegChild p x.name = true := by rw [hx, ← hcn]; exact hg.1.1
      simp [this, hgx, hg.2]
    · rw [if_neg hcn, goodChildren_cons]
      simp [hg.1.1, hg.1.2, ih hg.2]

theorem goodChildren_append_single {α : Type} {p : String} {x : Item α}
    (hseg : isSegChild p x.name = true) (hgx : goodFrom x = true) :
    ∀ cs : List (Item α), goodChildren p cs = true →
      goodChildren p (cs ++ [x]) = true := by
  intro cs
  induction cs with
  | nil =>
    intro _
    rw [List.nil_append, goodChildren_cons]
    simp [hseg, hgx, goodChildren_nil]
  | cons c cs ih =>
    intro hg
    rw [goodChildren_cons] at hg
    simp only [Bool.and_eq_true] at hg
    rw [List.cons_append, goodChildren_cons]
    simp [hg.1.1, hg.1.2, ih hg.2]

/-- Inserting a document whose chain respects the one-segment-deeper
discipline preserves it for the whole tree. -/
theorem goodFrom_insertNames {α : Type} (d : α) :
    ∀ (ch : List String) (t : Item α),
      goodFrom t = true → segPath t.name ch = true →
      goodFrom (insertNames d ch t) = true := by
  intro ch
  induction ch with
  | nil =>
    intro t hg _
    cases t with
    | mk n dd cs =>
      rw [insertNames]
      rw [goodFrom_mk] at hg ⊢
      exact hg
  | cons m chrest ih =>
    intro t hg hseg
    rw [show segPath t.name (m :: chrest)
      = (isSegChild t.name m && segPath m chrest) from rfl] at hseg
    simp only [Bool.and_eq_true] at hseg
    unfold insertNames
    cases hf : t.children.find? (fun c => decide (c.name = m)) with
    | some c₀ =>
      have hc₀ : c₀ ∈ t.children := mem_of_find?_name hf
      have hname : c₀.name = m := find?_some_name hf
      cases t with
      | mk n dd cs =>
        rw [goodFrom_mk] at hg
        have hmem := goodChildren_of_mem hg c₀ hc₀
        have hgx : goodFrom (insertNames d chrest c₀) = true := by
          apply ih c₀ hmem.2
          rw [hname]
          exact hseg.2
        have hxname : (insertNames d chrest c₀).name = m := by
          rw [name_insertNames]; exact hname
        rw [goodFrom_mk, children_mk]
        exact goodChildren_replaceFirst hxname hgx cs hg
    | none =>
      cases t with
      | mk n dd cs =>
        rw [goodFrom_mk] at hg
        have hgx : goodFrom (insertNames d chrest (Item.mk m none [])) = true := by
          apply ih (Item.mk m none [])
          · rw [goodFrom_mk]; exact goodChildren_nil m
          · rw [name_mk]; exact hseg.2
        have hxname : (insertNames d chrest (Item.mk m none [])).name = m := by
          rw [name_insertNames]; rfl
        have hsegx : isSegChild (Item.mk n dd cs).name
            (insertNames d chrest (Item.mk m none [])).name = true := by
          rw [hxname]; exact hseg.1
        rw [goodFrom_mk, children_mk]
        exact goodChildren_append_single hsegx hgx cs hg

/-! The fold over the document list. -/

theorem insertDoc_excluded {α : Type} {d : Doc α} (t : Item α)
    (h : d.navExclude = true) : insertDoc t d = t := by
  unfold insertDoc
  rw [if_pos h]

theorem insertDoc_not_excluded {α : Type} {d : Doc α} (t : Item α)
    (h : d.navExclude = false) :
    insertDoc t d = insertNames d.data (chainOf d.name) t := by
  unfold insertDoc
  rw [if_neg]
  rw [h]
  exact Bool.false_ne_true

theorem insertDoc_name {α : Type} (t : Item α) (d : Doc α) :
    (insertDoc t d).name = t.name := by
  cases h : d.navExclude with
  | true => rw [insertDoc_excluded t h]
  | false => rw [insertDoc_not_excluded t h, name_insertNames]

theorem foldl_insertDoc_name {α : Type} :
    ∀ (l : List (Doc α)) (t : Item α), (l.foldl insertDoc t).name = t.name := by
  intro l
  induction l with
  | nil => intro t; rfl
  | cons e l' ih =>
    intro t
    rw [List.foldl_cons, ih, insertDoc_name]

theorem navTree_name {α : Type} (docs : List (Doc α)) : (navTree docs).name = "/" := by
  unfold navTree
  rw [foldl_insertDoc_name]
  rfl

theorem navTree_append {α : Type} (docs : List (Doc α)) (d : Doc α) :
    navTree (docs ++ [d]) = insertDoc (navTree docs) d := by
  unfold navTree
  rw [List.foldl_append]
  rfl

theorem lt_of_take_eq_ne {l₁ l₂ : List String} (h : l₁.take l₂.length = l₂)
    (hne : ¬ l₁ = l₂) : l₂.length < l₁.length := by
  by_contra hnlt
  push_neg at hnlt
  rw [List.take_of_length_le hnlt] at h
  exact hne h

/-- Later insertions along other chains do not disturb a stored bag. -/
theorem dataAt_foldl_preserved {α : Type} :
    ∀ (l : List (Doc α)) (t : Item α) (ns : List String) (x : α),
      dataAt t ns = some (some x) →
      (∀ e ∈ l, e.navExclude = false → ¬ chainOf e.name = ns) →
      dataAt (l.foldl insertDoc t) ns = some (some x) := by
  intro l
  induction l with
  | nil => intro t ns x h _; exact h
  | cons e l' ih =>
    intro t ns x h hl
    rw [List.foldl_cons]
    apply ih
    · cases hex : e.navExclude with
      | true => rw [insertDoc_excluded t hex]; exact h
      | false =>
        rw [insertDoc_not_excluded t hex]
        have hch : ¬ chainOf e.name = ns := hl e (List.mem_cons_self _ _) hex
        by_cases htk : (chainOf e.name).take ns.length = ns
        · have hlt : ns.length < (chainOf e.name).length := lt_of_take_eq_ne htk hch
          rw [dataAt_insertNames_ancestor e.data _ t ns htk hlt, h]
          rfl
        · rw [dataAt_insertNames_other e.data _ t ns htk]
          exact h
    · intro e' he' hex'
      exact hl e' (List.mem_cons_of_mem _ he') hex'

/-- The node at the chain of a non-excluded document carries that document's
bag, provided no later non-excluded document has the same canonical path. -/
theorem navTree_last_write {α : Type} (l₁ : List (Doc α)) (d : Doc α) (l₂ : List (Doc α))
    (hc : ∀ e ∈ l₁ ++ d :: l₂, isCanonical e.name = true)
    (hex : d.navExclude = false)
    (hlast : ∀ e ∈ l₂, e.name = d.name → e.navExclude = true) :
    dataAt (navTree (l₁ ++ d :: l₂)) (chainOf d.name) = some (some d.data) := by
  unfold navTree
  rw [List.foldl_append, List.foldl_cons]
  apply dataAt_foldl_preserved
  · rw [insertDoc_not_excluded _ hex]
    exact dataAt_insertNames_self d.data (chainOf d.name) _
  · intro e he hexe hcheq
    have hccd : isCanonical d.name = true := hc d (by simp)
    have hcce : isCanonical e.name = true := hc e (by simp [he])
    have hen : e.name = d.name := chain_inj hcce hccd hcheq
    have htrue := hlast e he hen
    rw [hexe] at htrue
    exact Bool.false_ne_true htrue

/-- The one-segment-deeper invariant is preserved through the fold over any
all-canonical document list. -/
theorem goodFrom_foldl {α : Type} :
    ∀ (l : List (Doc α)) (t : Item α),
      (∀ e ∈ l, isCanonical e.name = true) → t.name = "/" → goodFrom t = true →
      goodFrom (l.foldl insertDoc t) = true := by
  intro l
  induction l with
  | nil => intro t _ _ hg; exact hg
  | cons e l' ih =>
    intro t hca hname hg
    rw [List.foldl_cons]
    apply ih
    · intro e' he'
      exact hca e' (List.mem_cons_of_mem _ he')
    · rw [insertDoc_name]
      exact hname
    · cases hex : e.navExclude with
      | true => rw [insertDoc_excluded t hex]; exact hg
      | false =>
        rw [insertDoc_not_excluded t hex]
        apply goodFrom_insertNames e.data (chainOf e.name) t hg
        rw [hname]
        exact segPath_chainOf (hca e (List.mem_cons_self _ _))

/-! Which names can appear as nodes: only the root name and chain names of
non-excluded documents. -/

theorem nodesList_nil {α : Type} : nodesList ([] : List (Item α)) = [] := by
  rw [nodesList]

theorem nodesList_append {α : Type} :
    ∀ l₁ l₂ : List (Item α), nodesList (l₁ ++ l₂) = nodesList l₁ ++ nodesList l₂ := by
  intro l₁ l₂
  induction l₁ with
  | nil => rw [List.nil_append, nodesList_nil, List.nil_append]
  | cons c cs ih =>
    rw [List.cons_append, nodesList_cons, nodesList_cons, ih, List.append_assoc]

theorem self_mem_nodes {α : Type} (t : Item α) : t ∈ t.nodes := by
  cases t with
  | mk n d cs => rw [nodes_mk]; exact List.mem_cons_self _ _

theorem mem_nodesList_replaceFirst {α : Type} {u : Item α} {n : String} {x : Item α} :
    ∀ cs : List (Item α), u ∈ nodesList (replaceFirst cs n x) →
      u ∈ nodesList cs ∨ u ∈ x.nodes := by
  intro cs
  induction cs with
  | nil => intro h; rw [replaceFirst, nodesList_nil] at h; simp at h
  | cons c cs ih =>
    intro h
    unfold replaceFirst at h
    by_cases hcn : c.name = n
    · rw [if_pos hcn, nodesList_cons] at h
      rcases List.mem_append.mp h with h' | h'
      · exact Or.inr h'
      · rw [nodesList_cons]
        exact Or.inl (List.mem_append_right _ h')
    · rw [if_neg hcn, nodesList_cons] at h
      rcases List.mem_append.mp h with h' | h'
      · rw [nodesList_cons]
        exact Or.inl (List.mem_append_left _ h')
      · rcases ih h' with h'' | h''
        · rw [nodesList_cons]
          exact Or.inl (List.mem_append_right _ h'')
        · exact Or.inr h''

/-- Inserting along `ch` creates no node name beyond the existing ones and
the names of `ch`. -/
theorem mem_nodes_insertNames {α : Type} (d : α) :
    ∀ (ch : List String) (t : Item α) (u : Item α),
      u ∈ (insertNames d ch t).nodes →
      (∃ v ∈ t.nodes, v.name = u.name) ∨ u.name ∈ ch := by
  intro ch
  induction ch with
  | nil =>
    intro t u h
    rw [insertNames] at h
    rw [nodes_mk] at h
    rcases List.mem_cons.mp h with h' | h'
    · subst h'
      exact Or.inl ⟨t, self_mem_nodes t, rfl⟩
    · cases t with
      | mk n dd cs =>
        rw [children_mk] at h'
        left
        refine ⟨u, ?_, rfl⟩
        rw [nodes_mk]
        exact List.mem_cons_of_mem _ h'
  | cons m chrest ih =>
    intro t u h
    unfold insertNames at h
    cases hf : t.children.find? (fun c => decide (c.name = m)) with
    | some c₀ =>
      rw [hf, nodes_mk] at h
      rcases List.mem_cons.mp h with h' | h'
      · subst h'
        exact Or.inl ⟨t, self_mem_nodes t, rfl⟩
      · rcases mem_nodesList_replaceFirst t.children h' with h'' | h''
        · left
          refine ⟨u, ?_, rfl⟩
          cases t with
          | mk n dd cs =>
            rw [nodes_mk]
            rw [children_mk] at h''
            exact List.mem_cons_of_mem _ h''
        · rcases ih c₀ u h'' with h₃ | h₃
          · obtain ⟨v, hv, hvn⟩ := h₃
            left
            refine ⟨v, ?_, hvn⟩
            have hc₀ : c₀ ∈ t.children := mem_of_find?_name hf
            cases t with
            | mk n dd cs =>
              rw [nodes_mk]
              rw [children_mk] at hc₀
              exact List.mem_cons_of_mem _ (mem_nodesList_of_mem hc₀ hv)
          · exact Or.inr (List.mem_cons_of_mem _ h₃)
    | none =>
      rw [hf, nodes_mk] at h
      rcases List.mem_cons.mp h with h' | h'
      · subst h'
        exact Or.inl ⟨t, self_mem_nodes t, rfl⟩
      · rw [nodesList_append, nodesList_cons, nodesList_nil, List.append_nil] at h'
        rcases List.mem_append.mp h' with h'' | h''
        · left
          refine ⟨u, ?_, rfl⟩
          cases t with
          | mk n dd cs =>
            rw [nodes_mk]
            rw [children_mk] at h''
            exact List.mem_cons_of_mem _ h''
        · rcases ih (Item.mk m none []) u h'' with h₃ | h₃
          · obtain ⟨v, hv, hvn⟩ := h₃
            rw [nodes_mk, nodesList_nil] at hv
            rcases List.mem_cons.mp hv with h₄ | h₄
            · subst h₄
              right
              rw [← hvn, name_mk]
              exact List.mem_cons_self _ _
            · simp at h₄
          · exact Or.inr (List.mem_cons_of_mem _ h₃)

/-- Over the whole fold: every node name is the root name or a chain name
of some non-excluded document. -/
theorem mem_nodes_foldl {α : Type} :
    ∀ (l : List (Doc α)) (t : Item α) (u : Item α),
      u ∈ (l.foldl insertDoc t).nodes →
      (∃ v ∈ t.nodes, v.name = u.name) ∨
        ∃ e ∈ l, e.navExclude = false ∧ u.name ∈ chainOf e.name := by
  intro l
  induction l with
  | nil => intro t u h; exact Or.inl ⟨u, h, rfl⟩
  | cons e l' ih =>
    intro t u h
    rw [List.foldl_cons] at h
    rcases ih (insertDoc t e) u h with h' | h'
    · obtain ⟨v, hv, hvn⟩ := h'
      cases hex : e.navExclude with
      | true =>
        rw [insertDoc_excluded t hex] at hv
        exact Or.inl ⟨v, hv, hvn⟩
      | false =>
        rw [insertDoc_not_excluded t hex] at hv
        rcases mem_nodes_insertNames e.data (chainOf e.name) t v hv with h'' | h''
        · obtain ⟨w, hw, hwn⟩ := h''
          exact Or.inl ⟨w, hw, by rw [hwn, hvn]⟩
        · right
          exact ⟨e, List.mem_cons_self _ _, hex, by rw [← hvn]; exact h''⟩
    · obtain ⟨e', he', hx⟩ := h'
      exact Or.inr ⟨e', List.mem_cons_of_mem _ he', hx⟩

/-! Sibling order: first-occurrence bookkeeping. -/

theorem dedupFirst_nil : dedupFirst [] = [] := rfl

theorem dedupAux_nil (seen : List String) : dedupAux seen [] = [] := rfl

theorem dedupAux_cons (seen : List String) (x : String) (xs : List String) :
    dedupAux seen (x :: xs)
      = if x ∈ seen then dedupAux seen xs else x :: dedupAux (x :: seen) xs := rfl

theorem dedupAux_append_single (y : String) :
    ∀ (l seen : List String),
      dedupAux seen (l ++ [y]) =
        dedupAux seen l ++ (if y ∈ seen ∨ y ∈ l then [] else [y]) := by
  intro l
  induction l with
  | nil =>
    intro seen
    by_cases h : y ∈ seen <;> simp [dedupAux_cons, dedupAux_nil, h]
  | cons x xs ih =>
    intro seen
    rw [List.cons_append, dedupAux_cons, dedupAux_cons]
    by_cases hx : x ∈ seen
    · rw [if_pos hx, if_pos hx, ih seen]
      congr 1
      apply if_congr ?_ rfl rfl
      constructor
      · intro h'
        rcases h' with h' | h'
        · exact Or.inl h'
        · exact Or.inr (List.mem_cons_of_mem _ h')
      · intro h'
        rcases h' with h' | h'
        · exact Or.inl h'
        · rcases List.mem_cons.mp h' with h'' | h''
          · subst h''; exact Or.inl hx
          · exact Or.inr h''
    · rw [if_neg hx, if_neg hx, ih (x :: seen), List.cons_append]
      congr 2
      apply if_congr ?_ rfl rfl
      constructor
      · intro h'
        rcases h' with h' | h'
        · rcases List.mem_cons.mp h' with h'' | h''
          · subst h''; exact Or.inr (List.mem_cons_self _ _)
          · exact Or.inl h''
        · exact Or.inr (List.mem_cons_of_mem _ h')
      · intro h'
        rcases h' with h' | h'
        · exact Or.inl (List.mem_cons_of_mem _ h')
        · rcases List.mem_cons.mp h' with h'' | h''
          · subst h''; exact Or.inl (List.mem_cons_self _ _)
          · exact Or.inr h''

theorem mem_dedupAux (y : String) :
    ∀ (l seen : List String), y ∈ dedupAux seen l ↔ (y ∈ l ∧ y ∉ seen) := by
  intro l
  induction l with
  | nil => intro seen; simp [dedupAux_nil]
  | cons x xs ih =>
    intro seen
    rw [dedupAux_cons]
    by_cases hx : x ∈ seen
    · rw [if_pos hx, ih seen]
      constructor
      · intro ⟨h1, h2⟩
        exact ⟨List.mem_cons_of_mem _ h1, h2⟩
      · intro ⟨h1, h2⟩
        rcases List.mem_cons.mp h1 with h' | h'
        · subst h'; exact absurd hx h2
        · exact ⟨h', h2⟩
    · rw [if_neg hx]
      constructor
      · intro h'
        rcases List.mem_cons.mp h' with h'' | h''
        · subst h''; exact ⟨List.mem_cons_self _ _, hx⟩
        · obtain ⟨h1, h2⟩ := (ih (x :: seen)).mp h''
          refine ⟨List.mem_cons_of_mem _ h1, ?_⟩
          intro hmem
          exact h2 (List.mem_cons_of_mem _ hmem)
      · intro ⟨h1, h2⟩
        rcases List.mem_cons.mp h1 with h' | h'
        · subst h'; exact List.mem_cons_self _ _
        · by_cases hyx : y = x
          · subst hyx; exact List.mem_cons_self _ _
          · refine List.mem_cons_of_mem _ ((ih (x :: seen)).mpr ⟨h', ?_⟩)
            intro hmem
            rcases List.mem_cons.mp hmem with h'' | h''
            · exact hyx h''
            · exact h2 h''

theorem mem_dedupFirst (y : String) (l : List String) :
    y ∈ dedupFirst l ↔ y ∈ l := by
  unfold dedupFirst
  rw [mem_dedupAux]
  simp

theorem dedupFirst_append_single (y : String) (l : List String) :
    dedupFirst (l ++ [y]) = appendIfAbsent (dedupFirst l) y := by
  have hstep : dedupFirst (l ++ [y]) = dedupFirst l ++ (if y ∈ l then [] else [y]) := by
    unfold dedupFirst
    rw [dedupAux_append_single]
    congr 1
    apply if_congr ?_ rfl rfl
    simp
  rw [hstep, appendIfAbsent]
  by_cases h : y ∈ l
  · rw [if_pos h, if_pos ((mem_dedupFirst y l).mpr h), List.append_nil]
  · rw [if_neg h, if_neg (fun h' => h ((mem_dedupFirst y l).mp h'))]

theorem occAt_nil {α : Type} (ns : List String) : occAt ([] : List (Doc α)) ns = [] := by
  unfold occAt
  rw [List.filter_nil, List.filterMap_nil, dedupFirst_nil]

theorem occAt_append_excluded {α : Type} (docs : List (Doc α)) (d : Doc α)
    (hex : d.navExclude = true) (ns : List String) :
    occAt (docs ++ [d]) ns = occAt docs ns := by
  unfold occAt
  rw [List.filter_append,
    show List.filter (fun d => !d.navExclude) [d] = [] by simp [hex],
    List.append_nil]

theorem occAt_append_not_excluded {α : Type} (docs : List (Doc α)) (d : Doc α)
    (hex : d.navExclude = false) (ns : List String) :
    occAt (docs ++ [d]) ns =
      match chainNext (chainOf d.name) ns with
      | some c => appendIfAbsent (occAt docs ns) c
      | none => occAt docs ns := by
  unfold occAt
  rw [List.filter_append,
    show List.filter (fun d => !d.navExclude) [d] = [d] by simp [hex],
    List.filterMap_append]
  cases hcn : chainNext (chainOf d.name) ns with
  | some c =>
    rw [show List.filterMap (fun d => chainNext (chainOf d.name) ns) [d] = [c] by
      simp [hcn]]
    exact dedupFirst_append_single c _
  | none =>
    rw [show List.filterMap (fun d => chainNext (chainOf d.name) ns) [d] = [] by
      simp [hcn]]
    rw [List.append_nil]

theorem chainNext_eq_some {ch ns : List String} {c : String}
    (h : chainNext ch ns = some c) :
    ch.take ns.length = ns ∧ ns.length < ch.length ∧ ch.getD ns.length ("") = c := by
  unfold chainNext at h
  by_cases htk : ch.take ns.length = ns
  · rw [if_pos htk] at h
    obtain ⟨hlt, hval⟩ := List.getElem?_eq_some.mp h
    refine ⟨htk, hlt, ?_⟩
    rw [List.getD_eq_getElem?_getD, h]
    rfl
  · rw [if_neg htk] at h
    exact absurd h (by simp)

theorem chainNext_eq_none {ch ns : List String} (h : chainNext ch ns = none) :
    ¬ ch.take ns.length = ns ∨ ns = ch := by
  unfold chainNext at h
  by_cases htk : ch.take ns.length = ns
  · rw [if_pos htk] at h
    have hle : ch.length ≤ ns.length := List.getElem?_eq_none_iff.mp h
    right
    rw [List.take_of_length_le hle] at htk
    exact htk.symm
  · exact Or.inl htk

theorem childNamesAt_eq_of_getNode {α : Type} {t : Item α} {ns : List String}
    {u : Item α} (h : getNode t ns = some u) :
    childNamesAt t ns = some (u.children.map Item.name) := by
  unfold childNamesAt
  rw [h]
  rfl

/-- At every node of the tree, the list of children names is exactly the
first-occurrence list of next-names over the non-excluded documents in
input order. -/
theorem navTree_children_spec {α : Type} (docs : List (Doc α)) :
    ∀ ns : List String,
      ((getNode (navTree docs) ns).isSome = false → occAt docs ns = []) ∧
      (∀ u, getNode (navTree docs) ns = some u →
        u.children.map Item.name = occAt docs ns) := by
  induction docs using List.reverseRecOn with
  | nil =>
    intro ns
    constructor
    · intro _
      exact occAt_nil ns
    · intro u hu
      cases ns with
      | nil =>
        have hui : u = Item.mk "/" none [] := (Option.some.inj hu).symm
        subst hui
        rw [children_mk, List.map_nil, occAt_nil]
      | cons n rest =>
        have hnone : getNode (navTree ([] : List (Doc α))) (n :: rest) = none := rfl
        rw [hnone] at hu
        exact absurd hu (by simp)
  | append_singleton docs d ih =>
    intro ns
    rw [navTree_append]
    cases hex : d.navExclude with
    | true =>
      rw [insertDoc_excluded _ hex, occAt_append_excluded docs d hex ns]
      exact ih ns
    | false =>
      rw [insertDoc_not_excluded _ hex, occAt_append_not_excluded docs d hex ns]
      cases hcn : chainNext (chainOf d.name) ns with
      | some c =>
        obtain ⟨htk, hlt, hgd⟩ := chainNext_eq_some hcn
        have hchild := childNamesAt_insertNames_ancestor d.data (chainOf d.name)
          (navTree docs) ns htk hlt
        constructor
        · intro hnone
          exfalso
          cases hg : getNode (insertNames d.data (chainOf d.name) (navTree docs)) ns with
          | some w => rw [hg] at hnone; simp at hnone
          | none =>
            unfold childNamesAt at hchild
            rw [hg] at hchild
            simp at hchild
        · intro u hu
          rw [childNamesAt_eq_of_getNode hu] at hchild
          have heq := Option.some.inj hchild
          rw [hgd] at heq
          have hbase : (childNamesAt (navTree docs) ns).getD [] = occAt docs ns := by
            cases hg : getNode (navTree docs) ns with
            | some u₀ =>
              rw [childNamesAt_eq_of_getNode hg]
              exact (ih ns).2 u₀ hg
            | none =>
              have hoc := (ih ns).1 (by rw [hg]; rfl)
              unfold childNamesAt
              rw [hg, hoc]
              rfl
          rw [hbase] at heq
          exact heq
      | none =>
        rcases chainNext_eq_none hcn with htk | hnseq
        · have hd := dataAt_insertNames_other d.data (chainOf d.name) (navTree docs) ns htk
          have hc := childNamesAt_insertNames_other d.data (chainOf d.name)
            (navTree docs) ns htk
          constructor
          · intro hnone
            apply (ih ns).1
            unfold dataAt at hd
            cases hg : getNode (navTree docs) ns with
            | none => rfl
            | some w =>
              exfalso
              rw [hg] at hd
              cases hg' : getNode (insertNames d.data (chainOf d.name) (navTree docs)) ns with
              | some w' => rw [hg'] at hnone; simp at hnone
              | none => rw [hg'] at hd; simp at hd
          · intro u hu
            have hthis := childNamesAt_eq_of_getNode hu
            rw [hc] at hthis
            cases hg : getNode (navTree docs) ns with
            | none =>
              unfold childNamesAt at hthis
              rw [hg] at hthis
              exact absurd hthis (by simp)
            | some u₀ =>
              rw [childNamesAt_eq_of_getNode hg] at hthis
              have heq := Option.some.inj hthis
              rw [← heq]
              exact (ih ns).2 u₀ hg
        · subst hnseq
          have hchild := childNamesAt_insertNames_self d.data (chainOf d.name)
            (navTree docs)
          constructor
          · intro hnone
            exfalso
            cases hg : getNode (insertNames d.data (chainOf d.name) (navTree docs))
                (chainOf d.name) with
            | some w => rw [hg] at hnone; simp at hnone
            | none =>
              unfold childNamesAt at hchild
              rw [hg] at hchild
              simp at hchild
          · intro u hu
            rw [childNamesAt_eq_of_getNode hu] at hchild
            have heq := Option.some.inj hchild
            cases hg : getNode (navTree docs) (chainOf d.name) with
            | some u₀ =>
              rw [childNamesAt_eq_of_getNode hg] at heq
              rw [heq]
              show u₀.children.map Item.name = occAt docs (chainOf d.name)
              exact (ih _).2 u₀ hg
            | none =>
              have hoc := (ih _).1 (by rw [hg]; rfl)
              unfold childNamesAt at heq
              rw [hg] at heq
              rw [heq, hoc]
              rfl

/-! Frame reasoning helpers. -/

theorem isSome_of_dataAt_eq_some {α : Type} {t : Item α} {ns : List String}
    {v : Option α} (h : dataAt t ns = some v) : (getNode t ns).isSome = true := by
  unfold dataAt at h
  cases hg : getNode t ns with
  | none => rw [hg] at h; exact absurd h (by simp)
  | some w => rfl

theorem isSome_eq_of_dataAt {α : Type} {t₁ t₂ : Item α} {ns : List String}
    (h : dataAt t₁ ns = dataAt t₂ ns) :
    (getNode t₁ ns).isSome = (getNode t₂ ns).isSome := by
  unfold dataAt at h
  cases hg₁ : getNode t₁ ns with
  | none =>
    cases hg₂ : getNode t₂ ns with
    | none => rfl
    | some w => rw [hg₁, hg₂] at h; exact absurd h (by simp)
  | some u =>
    cases hg₂ : getNode t₂ ns with
    | none => rw [hg₁, hg₂] at h; exact absurd h (by simp)
    | some w => rfl

theorem nameAt_eq_of_same_root {α : Type} {t₁ t₂ : Item α} (hname : t₁.name = t₂.name)
    (ns : List String) (hex : (getNode t₁ ns).isSome = (getNode t₂ ns).isSome) :
    nameAt t₁ ns = nameAt t₂ ns := by
  cases hg₁ : getNode t₁ ns with
  | none =>
    cases hg₂ : getNode t₂ ns with
    | none => unfold nameAt; rw [hg₁, hg₂]
    | some w => rw [hg₁, hg₂] at hex; simp at hex
  | some u =>
    cases hg₂ : getNode t₂ ns with
    | none => rw [hg₁, hg₂] at hex; simp at hex
    | some w =>
      unfold nameAt
      rw [hg₁, hg₂]
      show some u.name = some w.name
      have h₁ := name_of_getNode ns t₁ u hg₁
      have h₂ := name_of_getNode ns t₂ w hg₂
      rw [h₁, h₂, hname]

/-- When a node exists at `ch`, every initial chain of `ch` reaches a
node. -/
theorem getNode_take_isSome {α : Type} :
    ∀ (ch : List String) (t u : Item α), getNode t ch = some u →
      ∀ k, (getNode t (ch.take k)).isSome = true := by
  intro ch
  induction ch with
  | nil =>
    intro t u h k
    rw [List.take_nil, getNode_nil]
    rfl
  | cons m chrest ih =>
    intro t u h k
    cases k with
    | zero => rfl
    | succ k' =>
      rw [List.take_succ_cons]
      rw [getNode_cons] at h ⊢
      cases hf : t.children.find? (fun c => decide (c.name = m)) with
      | none => rw [hf] at h; exact absurd h (by simp)
      | some c₀ =>
        rw [hf] at h
        exact ih c₀ u h k'

/-- When a node exists at `ch`, every node on the way there already lists
the next chain name among its children names. -/
theorem mem_child_of_getNode {α : Type} :
    ∀ (ch : List String) (t u : Item α), getNode t ch = some u →
      ∀ k, k < ch.length →
        ∃ l, childNamesAt t (ch.take k) = some l ∧ ch.getD k ("") ∈ l := by
  intro ch
  induction ch with
  | nil => intro t u h k hk; simp at hk
  | cons m chrest ih =>
    intro t u h k hk
    rw [getNode_cons] at h
    cases hf : t.children.find? (fun c => decide (c.name = m)) with
    | none => rw [hf] at h; exact absurd h (by simp)
    | some c₀ =>
      rw [hf] at h
      cases k with
      | zero =>
        refine ⟨t.children.map Item.name, ?_, ?_⟩
        · rw [List.take_zero]
          exact childNamesAt_nil t
        · rw [List.getD_cons_zero]
          exact mem_map_name_of_find?_some hf
      | succ k' =>
        rw [List.take_succ_cons, List.getD_cons_succ]
        obtain ⟨l, hl, hmem⟩ := ih c₀ u h k' (by simpa using hk)
        refine ⟨l, ?_, hmem⟩
        rw [childNamesAt_cons, hf]
        exact hl

/-- Assembles a stored bag into the claim-level statement: a node named by
the document's path carrying its bag, attached to the root itself when the
path is `/`. -/
theorem hasNodeData_of_dataAt {α : Type} [DecidableEq α] {docs : List (Doc α)}
    {d : Doc α} (hcd : isCanonical d.name = true)
    (hdata : dataAt (navTree docs) (chainOf d.name) = some (some d.data)) :
    hasNodeData (navTree docs) d.name d.data = true ∧
      (d.name = "/" → (navTree docs).data = some d.data) := by
  unfold dataAt at hdata
  cases hg : getNode (navTree docs) (chainOf d.name) with
  | none => rw [hg] at hdata; exact absurd hdata (by simp)
  | some u =>
    rw [hg] at hdata
    have hd : u.data = some d.data := by simpa using hdata
    have hmem : u ∈ (navTree docs).nodes := mem_nodes_of_getNode _ _ _ hg
    have hname : u.name = d.name := by
      by_cases hroot : d.name = "/"
      · have hnil : chainOf d.name = [] := (chain_eq_nil_iff hcd).mpr hroot
        rw [hnil] at hg
        have hu : u = navTree docs := (Option.some.inj hg).symm
        rw [hu, navTree_name, hroot]
      · have hlast := chain_getLast?_eq hcd hroot
        have hthis := name_of_getNode (chainOf d.name) (navTree docs) u hg
        rw [hlast] at hthis
        simpa using hthis
    constructor
    · exact hasNodeData_iff.mpr ⟨u, hmem, hname, hd⟩
    · intro hroot
      have hnil : chainOf d.name = [] := (chain_eq_nil_iff hcd).mpr hroot
      rw [hnil] at hg
      have hu : u = navTree docs := (Option.some.inj hg).symm
      rw [← hu]
      exact hd

/-! Claim theorems. -/

/-- Claim C1, counterexample to the claim as stated: it is not true that
every non-excluded document's path and bag appear as a node of the tree.
With the duplicate-path input `["/x/" ↦ 0, "/x/" ↦ 1]` (both
non-excluded), the first document's bag `0` is attached nowhere: the later
document overwrote the node's data (line 138 of `generate.js`). -/
theorem nav_dup_first_doc_metadata_lost :
    ¬ (∀ (docs : List (Doc Nat)), ∀ d ∈ docs, d.navExclude = false →
        hasNodeData (navTree docs) d.name d.data = true) := by
  intro h
  have hres := h [Doc.mk ("/x/") 0 false, Doc.mk ("/x/") 1 false]
    (Doc.mk ("/x/") 0 false) (by decide) rfl
  exact absurd hres (by decide)

/-- Claim C1 (amended): every non-excluded document with a canonical path
that is not followed by a later non-excluded document with the same
canonical path has a node in the navigation tree whose path equals the
document's canonical path and whose metadata is that document's bag; in
particular a document whose path is `/` has its bag attached to the root
node itself. -/
theorem nav_doc_node_present {α : Type} [DecidableEq α] (docs l₁ l₂ : List (Doc α))
    (d : Doc α) (hsplit : docs = l₁ ++ d :: l₂)
    (hc : ∀ e ∈ docs, isCanonical e.name = true)
    (hex : d.navExclude = false)
    (hlast : ∀ e ∈ l₂, e.name = d.name → e.navExclude = true) :
    hasNodeData (navTree docs) d.name d.data = true ∧
      (d.name = "/" → (navTree docs).data = some d.data) := by
  subst hsplit
  exact hasNodeData_of_dataAt (hc d (by simp))
    (navTree_last_write l₁ d l₂ hc hex hlast)

theorem nav_doc_node_present_witness :
    hasNodeData (navTree [Doc.mk ("/a/") (1 : Nat) false, Doc.mk ("/") 2 false])
      ("/a/") 1 = true :=
  (nav_doc_node_present [Doc.mk ("/a/") (1 : Nat) false, Doc.mk ("/") 2 false]
    [] [Doc.mk ("/") 2 false] (Doc.mk ("/a/") 1 false) rfl (by decide) rfl
    (by decide)).1

/-- Claim C2: for an excluded document, no node exists for its path or for
any of its path prefixes, provided that name occurs in no non-excluded
document's chain of prefixes (`chainOf` lists exactly the document's
proper path prefixes and, for a canonical path other than `/`, the path
itself as its last element).  Excluded documents are skipped before any
node is created (line 124 of `generate.js`), so their segments never
create placeholder nodes. -/
theorem nav_excluded_unique_path_absent {α : Type} (docs : List (Doc α)) (d : Doc α)
    (hd : d ∈ docs) (hex : d.navExclude = true) (p : String)
    (hp : p ∈ chainOf d.name)
    (honly : ∀ e ∈ docs, e.navExclude = false → p ∉ chainOf e.name) :
    hasNodeNamed (navTree docs) p = false := by
  cases hb : hasNodeNamed (navTree docs) p with
  | false => rfl
  | true =>
    exfalso
    obtain ⟨u, hu, hname⟩ := hasNodeNamed_iff.mp hb
    have hu' : u ∈ ((docs.foldl insertDoc (Item.mk "/" none [])).nodes) := hu
    rcases mem_nodes_foldl docs (Item.mk "/" none []) u hu' with h' | h'
    · obtain ⟨v, hv, hvn⟩ := h'
      rw [nodes_mk, nodesList_nil] at hv
      rcases List.mem_cons.mp hv with h₂ | h₂
      · have hvroot : v.name = "/" := by rw [h₂]; rfl
        rw [hvn, hname] at hvroot
        exact mem_chain_ne_root hp hvroot
      · simp at h₂
    · obtain ⟨e, he, hexe, hpe⟩ := h'
      rw [hname] at hpe
      exact honly e he hexe hpe

theorem nav_excluded_unique_path_absent_witness :
    hasNodeNamed (navTree [Doc.mk ("/secret/page/") (5 : Nat) true]) ("/secret/")
      = false :=
  nav_excluded_unique_path_absent [Doc.mk ("/secret/page/") (5 : Nat) true]
    (Doc.mk ("/secret/page/") 5 true) (by decide) rfl ("/secret/") (by decide)
    (by decide)

/-- Claim C3, counterexample to the claim as stated: the sitemap does not
contain one entry per non-excluded document; it contains one entry per
document, excluded ones included (`allInfo.map` on line 145 of
`generate.js` is not filtered).  With a single excluded document the
sitemap has one entry while there are zero non-excluded documents. -/
theorem sitemap_includes_excluded :
    ¬ ((sitemapEntries ("https://mdxjs.com") (fun n => some n)
          [Doc.mk ("/secret/") (7 : Nat) true]).length =
        (([Doc.mk ("/secret/") (7 : Nat) true]).filter
          (fun d => !d.navExclude)).length) := by
  decide

/-- Claim C3 (amended): the sitemap contains exactly one entry per
document of the input list, excluded documents included; entry `i` carries
the absolute URL formed from the site origin and document `i`'s path,
document `i`'s last-modified timestamp, and the language tag `en`. -/
theorem sitemap_entry_per_document {α : Type} (site : String)
    (modifiedOf : α → Option Nat) (docs : List (Doc α)) :
    (sitemapEntries site modifiedOf docs).length = docs.length ∧
      ∀ (i : Nat) (h : i < docs.length),
        (sitemapEntries site modifiedOf docs)[i]? =
          some ⟨site ++ (docs[i]).name, modifiedOf (docs[i]).data, "en"⟩ := by
  constructor
  · exact List.length_map _ _
  · intro i h
    unfold sitemapEntries
    rw [List.getElem?_map, List.getElem?_eq_getElem h]
    rfl

theorem sitemap_entry_per_document_witness :
    (sitemapEntries ("https://mdxjs.com") (fun n => some n)
        [Doc.mk ("/secret/") (7 : Nat) true])[0]? =
      some ⟨("https://mdxjs.com") ++ ("/secret/"), some 7, "en"⟩ :=
  (sitemap_entry_per_document ("https://mdxjs.com") (fun n => some n)
    [Doc.mk ("/secret/") (7 : Nat) true]).2 0 (by decide)

/-- Claim C4, counterexample to the claim as stated: with two documents at
the same path where the last one is excluded, the node does not carry the
last such document's bag (the excluded one is skipped entirely); it keeps
the earlier document's bag. -/
theorem nav_dup_excluded_last_not_written :
    ¬ (∀ (docs : List (Doc Nat)) (l₁ l₂ l₃ : List (Doc Nat)) (d₁ d₂ : Doc Nat),
        docs = l₁ ++ d₁ :: l₂ ++ d₂ :: l₃ → d₁.name = d₂.name →
        (∀ e ∈ l₃, ¬ e.name = d₂.name) →
        hasNodeData (navTree docs) d₂.name d₂.data = true) := by
  intro h
  have hres := h [Doc.mk ("/x/") 0 false, Doc.mk ("/x/") 1 true] [] [] []
    (Doc.mk ("/x/") 0 false) (Doc.mk ("/x/") 1 true) rfl rfl (by decide)
  exact absurd hres (by decide)

/-- Claim C4 (amended): when several documents share a canonical path, the
node at that path carries the bag of the last non-excluded such document
(later entries overwrite earlier ones at that node, and excluded entries
are skipped). -/
theorem nav_dup_last_nonexcluded_wins {α : Type} [DecidableEq α]
    (docs l₁ l₂ l₃ : List (Doc α)) (d₁ d₂ : Doc α)
    (hsplit : docs = l₁ ++ d₁ :: l₂ ++ d₂ :: l₃)
    (hdup : d₁.name = d₂.name)
    (hc : ∀ e ∈ docs, isCanonical e.name = true)
    (hex : d₂.navExclude = false)
    (hlast : ∀ e ∈ l₃, e.name = d₂.name → e.navExclude = true) :
    hasNodeData (navTree docs) d₂.name d₂.data = true := by
  subst hsplit
  exact (hasNodeData_of_dataAt (hc d₂ (by simp))
    (navTree_last_write (l₁ ++ d₁ :: l₂) d₂ l₃ hc hex hlast)).1

theorem nav_dup_last_nonexcluded_wins_witness :
    hasNodeData (navTree [Doc.mk ("/x/") (0 : Nat) false, Doc.mk ("/x/") 1 false])
      ("/x/") 1 = true :=
  nav_dup_last_nonexcluded_wins
    [Doc.mk ("/x/") (0 : Nat) false, Doc.mk ("/x/") 1 false] [] [] []
    (Doc.mk ("/x/") 0 false) (Doc.mk ("/x/") 1 false) rfl rfl (by decide) rfl
    (by decide)

/-- Claim C5, counterexample to the claim as stated: sibling order does not
follow first occurrence over the whole input sequence.  With input
`[/a/ (excluded), /b/, /a/]`, the path `/a/` first occurs before `/b/` in
the input, yet the root's children are `[/b/, /a/]` because excluded
documents contribute nothing when processed. -/
theorem nav_sibling_order_input_refuted :
    ¬ (∀ (docs : List (Doc Nat)) (ns : List String) (u : Item Nat),
        getNode (navTree docs) ns = some u →
        u.children.map Item.name = occAtAll docs ns) := by
  intro h
  have hres := h [Doc.mk ("/a/") 0 true, Doc.mk ("/b/") 1 false, Doc.mk ("/a/") 2 false]
    [] (navTree [Doc.mk ("/a/") 0 true, Doc.mk ("/b/") 1 false, Doc.mk ("/a/") 2 false])
    rfl
  exact absurd hres (by decide)

/-- Claim C5 (amended): at every node of the resulting tree, the order of
the children equals the order in which their paths first occur, as a
document path or a prefix of one, over the non-excluded documents of the
input sequence; siblings are never sorted. -/
theorem nav_children_first_occurrence_order {α : Type} (docs : List (Doc α))
    (ns : List String) (u : Item α) (hu : getNode (navTree docs) ns = some u) :
    u.children.map Item.name = occAt docs ns :=
  (navTree_children_spec docs ns).2 u hu

theorem nav_children_first_occurrence_order_witness :
    (navTree [Doc.mk ("/b/") (0 : Nat) false,
        Doc.mk ("/a/") 1 false]).children.map Item.name =
      occAt [Doc.mk ("/b/") (0 : Nat) false, Doc.mk ("/a/") 1 false] [] :=
  nav_children_first_occurrence_order
    [Doc.mk ("/b/") (0 : Nat) false, Doc.mk ("/a/") 1 false] []
    (navTree [Doc.mk ("/b/") (0 : Nat) false, Doc.mk ("/a/") 1 false]) rfl

/-- Claim C6: over any input of canonical paths, after every step of the
construction fold the root's path is `/` and every non-root node's path is
its parent's path extended by exactly one segment followed by `/`
(`goodFrom` checks `isSegChild` for every parent-child pair). -/
theorem nav_segment_invariant {α : Type} (docs : List (Doc α))
    (hc : ∀ e ∈ docs, isCanonical e.name = true) :
    ∀ k : Nat, (navTree (docs.take k)).name = "/" ∧
      goodFrom (navTree (docs.take k)) = true := by
  intro k
  constructor
  · exact navTree_name _
  · apply goodFrom_foldl
    · intro e he
      exact hc e (List.Sublist.mem he (List.take_sublist _ _))
    · rfl
    · rw [goodFrom_mk]
      exact goodChildren_nil _

theorem nav_segment_invariant_witness :
    (navTree ([Doc.mk ("/blog/a/") (1 : Nat) false, Doc.mk ("/") 2 false].take 2)).name
        = "/" ∧
      goodFrom (navTree
        ([Doc.mk ("/blog/a/") (1 : Nat) false, Doc.mk ("/") 2 false].take 2)) = true :=
  nav_segment_invariant [Doc.mk ("/blog/a/") (1 : Nat) false, Doc.mk ("/") 2 false]
    (by decide) 2

/-- Claim C7: from documents at `/blog/a/` and `/blog/b/` (neither
excluded) and no document at `/blog/`, the tree is the root with one
placeholder child `/blog/` carrying the empty bag, whose children are
`/blog/a/` and `/blog/b/` carrying the two documents' bags. -/
theorem nav_blog_placeholder_example {α : Type} (d₁ d₂ : α) :
    navTree [Doc.mk ("/blog/a/") d₁ false, Doc.mk ("/blog/b/") d₂ false] =
      Item.mk "/" none
        [Item.mk "/blog/" none
          [Item.mk "/blog/a/" (some d₁) [], Item.mk "/blog/b/" (some d₂) []]] := rfl

/-- Claim C8: every document of the input, excluded ones included, gets its
metadata JSON written at `<path>index.json` and its HTML at
`<path>index.html` (the render phase maps over `allInfo` without any
filtering); there is exactly one output pair per document. -/
theorem render_outputs_every_document {α : Type} (docs : List (Doc α)) (d : Doc α)
    (hd : d ∈ docs) :
    (d.name ++ "index.json", d.name ++ "index.html") ∈ renderOutputs docs ∧
      (renderOutputs docs).length = docs.length := by
  constructor
  · exact List.mem_map_of_mem _ hd
  · exact List.length_map _ _

theorem render_outputs_every_document_witness :
    ((Doc.mk ("/secret/") (7 : Nat) true).name ++ "index.json",
        (Doc.mk ("/secret/") (7 : Nat) true).name ++ "index.html") ∈
      renderOutputs [Doc.mk ("/secret/") (7 : Nat) true] ∧
      (renderOutputs [Doc.mk ("/secret/") (7 : Nat) true]).length =
        ([Doc.mk ("/secret/") (7 : Nat) true] : List (Doc Nat)).length :=
  render_outputs_every_document [Doc.mk ("/secret/") (7 : Nat) true]
    (Doc.mk ("/secret/") 7 true) (by decide)

/-- Claim C9: tree construction is a deterministic function of the input
document list; building twice from the same input yields structurally
identical trees. -/
theorem navTree_deterministic {α : Type} (docs₁ docs₂ : List (Doc α))
    (h : docs₁ = docs₂) : navTree docs₁ = navTree docs₂ := by
  rw [h]

theorem navTree_deterministic_witness :
    navTree [Doc.mk ("/a/") (1 : Nat) false] = navTree [Doc.mk ("/a/") (1 : Nat) false] :=
  navTree_deterministic [Doc.mk ("/a/") (1 : Nat) false]
    [Doc.mk ("/a/") (1 : Nat) false] rfl

/-- Claim C10: attaching a non-excluded document's bag to a node that
already exists replaces only that node's `data` field: the node keeps its
name and children, every other node keeps its name, data, and children
names, and no node is removed (existing nodes still exist). -/
theorem insert_existing_node_frame {α : Type} (t : Item α) (d : Doc α) (u : Item α)
    (hex : d.navExclude = false)
    (hu : getNode t (chainOf d.name) = some u) :
    getNode (insertDoc t d) (chainOf d.name)
        = some (Item.mk u.name (some d.data) u.children) ∧
      (∀ ns, ¬ ns = chainOf d.name →
        nameAt (insertDoc t d) ns = nameAt t ns ∧
        dataAt (insertDoc t d) ns = dataAt t ns ∧
        childNamesAt (insertDoc t d) ns = childNamesAt t ns) ∧
      (∀ ns, (getNode t ns).isSome = true →
        (getNode (insertDoc t d) ns).isSome = true) := by
  rw [insertDoc_not_excluded t hex]
  refine ⟨getNode_insertNames_exists d.data (chainOf d.name) t u hu, ?_, ?_⟩
  · intro ns hns
    by_cases htk : (chainOf d.name).take ns.length = ns
    · have hlt : ns.length < (chainOf d.name).length :=
        lt_of_take_eq_ne htk (fun he => hns he.symm)
      have hsome : (getNode t ns).isSome = true := by
        have hh := getNode_take_isSome (chainOf d.name) t u hu ns.length
        rw [htk] at hh
        exact hh
      obtain ⟨w, hw⟩ : ∃ w, getNode t ns = some w := by
        cases hgw : getNode t ns with
        | none => rw [hgw] at hsome; simp at hsome
        | some w => exact ⟨w, rfl⟩
      have hdata : dataAt (insertNames d.data (chainOf d.name) t) ns = dataAt t ns := by
        rw [dataAt_insertNames_ancestor d.data _ t ns htk hlt]
        unfold dataAt
        rw [hw]
        rfl
      have hchild : childNamesAt (insertNames d.data (chainOf d.name) t) ns
          = childNamesAt t ns := by
        rw [childNamesAt_insertNames_ancestor d.data _ t ns htk hlt]
        obtain ⟨l, hl, hmem⟩ :=
          mem_child_of_getNode (chainOf d.name) t u hu ns.length hlt
        rw [htk] at hl
        rw [hl]
        show some (appendIfAbsent ((some l).getD [])
          ((chainOf d.name).getD ns.length (""))) = some l
        rw [show ((some l).getD ([] : List String)) = l from rfl]
        rw [appendIfAbsent, if_pos hmem]
      exact ⟨nameAt_eq_of_same_root (name_insertNames _ _ _) ns
        (isSome_eq_of_dataAt hdata), hdata, hchild⟩
    · have hdata := dataAt_insertNames_other d.data (chainOf d.name) t ns htk
      have hchild := childNamesAt_insertNames_other d.data (chainOf d.name) t ns htk
      exact ⟨nameAt_eq_of_same_root (name_insertNames _ _ _) ns
        (isSome_eq_of_dataAt hdata), hdata, hchild⟩
  · intro ns hsome
    by_cases htk : (chainOf d.name).take ns.length = ns
    · by_cases hlen : ns.length < (chainOf d.name).length
      · exact isSome_of_dataAt_eq_some
          (dataAt_insertNames_ancestor d.data _ t ns htk hlen)
      · have hle : (chainOf d.name).length ≤ ns.length := Nat.le_of_not_lt hlen
        have hcheq : chainOf d.name = ns := by
          rw [← htk]
          exact (List.take_of_length_le hle).symm
        rw [← hcheq]
        exact isSome_of_dataAt_eq_some
          (dataAt_insertNames_self d.data (chainOf d.name) t)
    · rw [isSome_eq_of_dataAt
        (dataAt_insertNames_other d.data (chainOf d.name) t ns htk)]
      exact hsome

theorem insert_existing_node_frame_witness :
    getNode
        (insertDoc (navTree [Doc.mk ("/x/") (0 : Nat) false])
          (Doc.mk ("/x/") 1 false))
        (chainOf ("/x/")) =
      some (Item.mk ("/x/") (some 1) []) :=
  (insert_existing_node_frame (navTree [Doc.mk ("/x/") (0 : Nat) false])
    (Doc.mk ("/x/") 1 false) (Item.mk ("/x/") (some 0) []) rfl rfl).1

end Generate
